/-
Formal model of the detection-summary core of the `hass-sandbox` repository.

The development shallowly embeds, in Lean 4:
  * the adaptive budgeted frame-selection engine
    (`appdaemon/apps/detection_summary_app/selection.py`),
  * the capture stop condition
    (`appdaemon/apps/detection_summary_app/capture.py`),
  * the result store's mutating operations
    (`appdaemon/apps/detection_summary_store.py`),
  * the per-index scoring wrapper `score_one`
    (`appdaemon/apps/detection_summary_app/manager.py`), and
  * the diagnostic ranking built in `build_bundle_dict`
    (`appdaemon/apps/detection_summary_app/bundle.py`),
and proves properties of the embedded code.

Modelling conventions, used throughout:
  * Python floats are modelled as `Rat`.  The code only creates, copies and
    compares score values (never adds or multiplies user data), so rationals
    are an exact model of every comparison the code performs on them.
  * A Python `dict` is an insertion-ordered association list with unique keys
    (`List (key × value)`); iteration order of `.items()` / `.keys()` is the
    list order, exactly as in CPython.
  * Python's `sorted` / `list.sort` are stable sorts; they are embedded as
    `List.insertionSort`, which is stable with the same placement rule, hence
    extensionally equal to any stable sort for the same total preorder.
  * `random.Random(seed)` is modelled as an oracle (`RngOracle`): a family of
    streams indexed by the number of RNG calls made so far.  All universally
    quantified theorems hold for every oracle, hence for every seed.
  * Code that raises (`max()` over an empty sequence raises `ValueError` in
    `adaptive_select_and_score`) is modelled with `Option`: `none` is the
    propagated exception.
  * The opaque `structured` payload of `ScoreResult` and the bundle fields the
    store never reads are omitted: no operation modelled here observes them.
-/
import Mathlib

/-! ## Basic Python-semantics helpers -/

/-- Python `int(x)` for a float `x`: truncation toward zero. -/
def pyInt (x : Rat) : Int := if 0 ≤ x then x.floor else x.ceil

/-- `max(0, min(n - 1, int(ii)))` — the index clamp used by `ensure` and
`ensure_batch` in `selection.py` (with Python semantics `n - 1 = -1` when
`n = 0`, so the clamp yields `0` there). -/
def clampIdx (n : Nat) (ii : Int) : Nat := (max 0 (min ((n : Int) - 1) ii)).toNat

/-- Python `sorted` on a list of ints (ascending, stable). -/
def py_sorted_nat (l : List Nat) : List Nat := List.insertionSort (· ≤ ·) l

/-- Python `sorted(s)` for a set `s` built from the elements of `l`:
the distinct elements of `l` in ascending order. -/
def py_sorted_set (l : List Nat) : List Nat := py_sorted_nat l.dedup

/-- Python `min(l)` for a list of ints (`none` on the empty list, where the
source would raise; the source only calls it behind a non-emptiness test). -/
def listMin : List Nat → Option Nat
  | [] => none
  | x :: xs => some (xs.foldl min x)

/-- Python `max(l)` for a list of ints (`none` on the empty list). -/
def listMax : List Nat → Option Nat
  | [] => none
  | x :: xs => some (xs.foldl max x)

/-- Python `str.strip()` (whitespace at both ends), implemented over the
character list so that the kernel can evaluate it (`String.trim` in core is
opaque to the kernel). -/
def pyStrStrip (s : String) : String :=
  String.mk (((s.data.dropWhile Char.isWhitespace).reverse.dropWhile
    Char.isWhitespace).reverse)

/-- Python `str.lower()`, implemented over the character list for the same
reason. -/
def pyStrLower (s : String) : String := String.mk (s.data.map Char.toLower)

/-! ## `selection.py`: data types and the ranking key -/

/-- `ScoreResult` from `selection.py` (the opaque `structured` dict is
omitted; nothing modelled here reads it). -/
structure ScoreResult where
  person_score : Rat
  face_score : Rat
  frame_score : Rat
  pose : String
  summary : String
deriving DecidableEq, Repr

/-- The zero/`"none"`-pose placeholder `ScoreResult(0, 0, 0, "none", "", {})`
returned by `ensure` when the budget is exhausted or a batch scorer did not
deliver the requested index. -/
def placeholder_score : ScoreResult := ⟨0, 0, 0, "none", ""⟩

/-- `_pose_rank` from `selection.py`. -/
def pose_rank (pose : String) : Nat :=
  let p := pyStrLower (pyStrStrip pose)
  if p = "standing" then 3
  else if p = "stationary" then 3
  else if p = "sitting" then 2
  else if p = "walking" then 1
  else if p = "moving" then 1
  else 0

/-- The type of the 6-tuple returned by `_pick_key`, with Python's
lexicographic tuple comparison (encoded through `Prod.Lex`). -/
abbrev PickKey :=
  Lex (Nat × Lex (Rat × Lex (Rat × Lex (Nat × Lex (Rat × Nat)))))

/-- `_pick_key` from `selection.py`:
`(has_person, face_score, frame_score, pose_rank, person_score, has_summary)`
compared lexicographically. -/
def pick_key (res : ScoreResult) : PickKey :=
  let has_person : Nat := if 0 < res.person_score then 1 else 0
  let has_summary : Nat := if pyStrStrip res.summary ≠ "" then 1 else 0
  toLex (has_person, toLex (res.face_score, toLex (res.frame_score,
    toLex (pose_rank res.pose, toLex (res.person_score, has_summary)))))

/-- `_rank_key` from `build_bundle_dict` in `bundle.py` — textually repeated
there; identical to `pick_key` (the `float(...)` casts are identities in this
model). -/
def rank_key (res : ScoreResult) : PickKey :=
  let has_person : Nat := if 0 < res.person_score then 1 else 0
  let has_summary : Nat := if pyStrStrip res.summary ≠ "" then 1 else 0
  let pose := pyStrLower (pyStrStrip res.pose)
  let pr : Nat :=
    if pose = "standing" then 3
    else if pose = "stationary" then 3
    else if pose = "sitting" then 2
    else if pose = "walking" then 1
    else if pose = "moving" then 1
    else 0
  toLex (has_person, toLex (res.face_score, toLex (res.frame_score,
    toLex (pr, toLex (res.person_score, has_summary)))))

/-! ## Python dicts keyed by frame index -/

/-- The `scored` dict: insertion-ordered association list `index → ScoreResult`. -/
abbrev Dict := List (Nat × ScoreResult)

/-- `k in scored` / `scored.get(k)`. -/
def dictGet (d : Dict) (k : Nat) : Option ScoreResult :=
  (d.find? (fun p => p.1 = k)).map Prod.snd

/-- `scored.keys()` in iteration (= insertion) order. -/
def dictKeys (d : Dict) : List Nat := d.map Prod.fst

/-- `scored[k] = v`: update in place when present, append otherwise. -/
def dictSet (d : Dict) (k : Nat) (v : ScoreResult) : Dict :=
  if (d.find? (fun p => p.1 = k)).isSome then
    d.map (fun p => if p.1 = k then (k, v) else p)
  else d ++ [(k, v)]

/-- The key function `lambda i: _pick_key(scored[i])` used by both
`max(scored.keys(), key=...)` calls in `selection.py`.  `scored[i]` always
succeeds at those call sites; the default never materialises. -/
def keyOfIdx (d : Dict) (i : Nat) : PickKey :=
  pick_key ((dictGet d i).getD placeholder_score)

/-- Python `max(iterable, key=f)`: the FIRST element attaining the maximal
key, in iteration order (later elements replace the running maximum only when
strictly greater).  `none` models the `ValueError` raised on an empty
iterable. -/
def pyMaxBy (f : Nat → PickKey) : List Nat → Option Nat
  | [] => none
  | x :: xs => some (xs.foldl (fun best y => if f best < f y then y else best) x)

/-- `max(scored.keys(), key=lambda i: _pick_key(scored[i]))`. -/
def pyMaxKeys (d : Dict) : Option Nat := pyMaxBy (keyOfIdx d) (dictKeys d)

/-! ## `capture.py`: the capture stop condition -/

structure CaptureConfig where
  snapshot_interval_s : Rat
  off_grace_s : Rat
  capture_max_s : Rat
  off_poll_s : Rat
deriving DecidableEq, Repr

structure CapturedFrame where
  idx : Nat
  filename : String
  image_ha_path : String
  captured_ts : Rat
deriving DecidableEq, Repr

structure CaptureState where
  run_id : String
  started_ts : Rat
  frames : List CapturedFrame
  capture_idx : Nat
  motion_off_since : Option Rat
  timed_out : Bool
  ended_ts : Option Rat
deriving DecidableEq, Repr

/-- `should_stop_capture` from `capture.py`.  The Python function mutates
`state` and returns a bool; the embedding returns the updated state together
with the bool. -/
def should_stop_capture (now : Rat) (cfg : CaptureConfig) (state : CaptureState)
    (motion_is_on : Bool) : CaptureState × Bool :=
  if 0 < cfg.capture_max_s ∧ cfg.capture_max_s ≤ now - state.started_ts then
    ({ state with timed_out := true, ended_ts := some now }, true)
  else if motion_is_on then
    ({ state with motion_off_since := none }, false)
  else
    match state.motion_off_since with
    | none => ({ state with motion_off_since := some now }, false)
    | some off_since =>
      if cfg.off_grace_s ≤ 0 then
        ({ state with ended_ts := some now }, true)
      else if cfg.off_grace_s ≤ now - off_since then
        ({ state with ended_ts := some now }, true)
      else (state, false)

/-! ## `detection_summary_store.py`: the mutating store operations

The store keeps `bundle_key → list of bundle dicts`.  Only the fields the
modelled operations read or write are kept: `run_id` (looked up by
`mark_consumed`), `created_at_epoch` (sort / retention key, always read
through `_safe_float`, so it is modelled as the `Rat` that `_safe_float`
yields), `consumed` and `consumed_at_utc`.  The consumed-at timestamp is
modelled as the epoch `Rat` that `_utc_iso` would format.  Persistence
(`_save`) and condition-variable notification are process effects outside the
store's observable data and are not modelled. -/

/-- A bundle as passed to `publish_bundle`: `created_at_epoch` and `consumed`
may be absent (`publish_bundle` fills defaults via `setdefault`). -/
structure Bundle where
  run_id : String
  created_at_epoch : Option Rat
  consumed : Option Bool
  consumed_at_utc : Option Rat
deriving DecidableEq, Repr

/-- A bundle as held by the store after `publish_bundle` filled defaults. -/
structure StoredBundle where
  run_id : String
  created_at_epoch : Rat
  consumed : Bool
  consumed_at_utc : Option Rat
deriving DecidableEq, Repr

/-- The store's `bundles` mapping.  A key that was never published has the
empty list, exactly like `self._data.get("bundles", {}).get(key, [])`. -/
abbrev Store := String → List StoredBundle

def emptyStore : Store := fun _ => []

/-- `bundles.sort(key=lambda b: _safe_float(b.get("created_at_epoch")), reverse=True)`:
stable descending sort by `created_at_epoch`. -/
def sort_desc_by_created (l : List StoredBundle) : List StoredBundle :=
  List.insertionSort (fun a b => b.created_at_epoch ≤ a.created_at_epoch) l

/-- `publish_bundle` from `detection_summary_store.py`: fill defaults, append,
re-sort newest-first, truncate to the per-key cap (`del bundles[cap:]`). -/
def publish_bundle (cap : Nat) (s : Store) (bundle_key : String) (bundle : Bundle)
    (now : Rat) : Store :=
  let created := bundle.created_at_epoch.getD now
  let stored : StoredBundle :=
    ⟨bundle.run_id, created, bundle.consumed.getD false, bundle.consumed_at_utc⟩
  fun k => if k = bundle_key
    then (sort_desc_by_created (s bundle_key ++ [stored])).take cap
    else s k

/-- The list-level loop of `mark_consumed`: find the first record with the
given `run_id`; mark it consumed (stamping the timestamp only when it was not
consumed yet); report whether it was found. -/
def mark_consumed_list (run_id : String) (now : Rat) :
    List StoredBundle → List StoredBundle × Bool
  | [] => ([], false)
  | b :: bs =>
    if b.run_id = run_id then
      (if b.consumed then b :: bs
       else { b with consumed := true, consumed_at_utc := some now } :: bs, true)
    else
      let r := mark_consumed_list run_id now bs
      (b :: r.1, r.2)

/-- `mark_consumed` from `detection_summary_store.py`. -/
def mark_consumed (s : Store) (bundle_key run_id : String) (now : Rat) :
    Store × Bool :=
  let r := mark_consumed_list run_id now (s bundle_key)
  (fun k => if k = bundle_key then r.1 else s k, r.2)

/-- `cleanup` from `detection_summary_store.py`: drop records strictly older
than `now - retention_hours * 3600` from every key. -/
def cleanup (s : Store) (retention_hours : Rat) (now : Rat) : Store :=
  let cutoff := now - (max 0 retention_hours) * 3600
  fun k => (s k).filter (fun b => cutoff ≤ b.created_at_epoch)

/-- The store invariant of the spec (§3): every key's list is sorted by
`created_at_epoch` descending and holds at most `cap` records. -/
def StoreInv (cap : Nat) (s : Store) : Prop :=
  ∀ k, List.Pairwise (fun a b => b.created_at_epoch ≤ a.created_at_epoch) (s k)
    ∧ (s k).length ≤ cap

/-! ## `selection.py`: the adaptive selection engine

The engine's RNG (`random.Random(seed)`) is modelled as an oracle giving the
result of the `t`-th RNG call; universally quantified theorems therefore hold
for every seed.  Scoring callables are parameters: `score_index` is total (the
production `score_index` in `manager.py` catches every provider error itself),
and the optional `score_indices` returns the dict produced by the batch
scorer, as an insertion-ordered association list whose values may be `none`
(Python `None`). -/

/-- The result of the `t`-th call of each kind on a `random.Random` instance.
`random` values are reals in `[0, 1)` for a genuine RNG; no theorem below
needs that assumption because the engine clamps every derived index. -/
structure RngOracle where
  random : Nat → Rat
  randint : Nat → Int → Int → Int
  shuffle : Nat → List Nat → List Nat

/-- A batch scorer (`score_indices` argument): the returned Python dict in
its iteration order, values `none` for `None`. -/
abbrev BatchScorer := List Nat → List (Nat × Option ScoreResult)

/-- Engine parameters (`adaptive_select_and_score` arguments after
normalisation: `n = int(total_frames)`, `budget = max(1, int(budget))`). -/
structure EngineCtx where
  n : Nat
  budget : Nat
  score_index : Nat → ScoreResult
  score_indices : Option BatchScorer
  no_people_threshold : Rat
  lookahead_after_no_people : Nat

/-- Engine mutable state: the `scored` cache and the `probes` log. -/
structure EngineState where
  scored : Dict
  probes : List Nat
deriving Repr

/-- `SelectionMeta` from `selection.py` (`cutoff_idx_inclusive` is an `Int`
because the source stores `n - 1`, which is `-1` for `n = 0`). -/
structure SelectionMeta where
  budget : Nat
  scored_indices : List Nat
  probes : List Nat
  cutoff_idx_inclusive : Int
  best_idx : Nat
deriving DecidableEq, Repr

/-- The loop body of the `uniq` construction in `ensure_batch`: clamp each
requested index, drop those already scored and duplicates, preserving order
(`acc` is the list built so far). -/
def buildUniqAux (n : Nat) (scored : Dict) : List Int → List Nat → List Nat
  | [], acc => acc
  | ii :: rest, acc =>
    if (dictGet scored (clampIdx n ii)).isSome ∨ clampIdx n ii ∈ acc then
      buildUniqAux n scored rest acc
    else buildUniqAux n scored rest (acc ++ [clampIdx n ii])

/-- The `uniq` list built by `ensure_batch`. -/
def buildUniq (n : Nat) (scored : Dict) (indices : List Int) : List Nat :=
  buildUniqAux n scored indices []

/-- The dict-merge loop of `ensure_batch`'s batch branch:
`for k, v in (got or {}).items(): if k not in scored and v is not None: scored[int(k)] = v`. -/
def mergeGot (scored : Dict) : List (Nat × Option ScoreResult) → Dict
  | [] => scored
  | (k, v) :: rest =>
    match v with
    | none => mergeGot scored rest
    | some r =>
      if (dictGet scored k).isSome then mergeGot scored rest
      else mergeGot (scored ++ [(k, r)]) rest

/-- The scoring step of `ensure_batch`, applied to the deduplicated,
budget-truncated request list `uniq`: log the probes, then either merge the
batch scorer's dict or score sequentially. -/
def ensure_batch_run (ctx : EngineCtx) (st : EngineState) (uniq : List Nat) :
    EngineState :=
  match ctx.score_indices with
  | some f => ⟨mergeGot st.scored (f uniq), st.probes ++ uniq⟩
  | none =>
    ⟨uniq.foldl (fun d ii => dictSet d ii (ctx.score_index ii)) st.scored,
      st.probes ++ uniq⟩

/-- `ensure_batch` from `selection.py` (`remaining = budget - len(scored)`;
`uniq[:remaining]` is the truncated request batch). -/
def ensure_batch (ctx : EngineCtx) (st : EngineState) (indices : List Int) :
    EngineState :=
  if indices.isEmpty ∨ ctx.budget ≤ st.scored.length then st
  else if (buildUniq ctx.n st.scored indices).isEmpty then st
  else ensure_batch_run ctx st
    ((buildUniq ctx.n st.scored indices).take (ctx.budget - st.scored.length))

/-- `ensure` from `selection.py`: return the cached result, or a placeholder
when the budget is exhausted, else score through `ensure_batch` (falling back
to the placeholder when a batch scorer failed to deliver the index). -/
def ensure (ctx : EngineCtx) (st : EngineState) (i : Int) :
    EngineState × ScoreResult :=
  match dictGet st.scored (clampIdx ctx.n i) with
  | some r => (st, r)
  | none =>
    if ctx.budget ≤ st.scored.length then (st, placeholder_score)
    else
      (ensure_batch ctx st [(clampIdx ctx.n i : Int)],
        (dictGet (ensure_batch ctx st [(clampIdx ctx.n i : Int)]).scored
          (clampIdx ctx.n i)).getD placeholder_score)

/-- The retry loop of `_weighted_random_indices`: draw, skew toward 0, clamp,
insert into the set until `target` distinct indices are held. -/
def wri_loop (o : RngOracle) (max_idx target : Nat) :
    Nat → Nat → List Nat → List Nat × Nat
  | 0, t, out => (out, t)
  | fuel + 1, t, out =>
    if out.length < target then
      let u := o.random t
      let idx := pyInt (u * u * u * (max_idx : Rat))
      let j := (max 0 (min (max_idx : Int) idx)).toNat
      wri_loop o max_idx target fuel (t + 1) (if j ∈ out then out else out ++ [j])
    else (out, t)

/-- `_weighted_random_indices` from `selection.py`.  The source loops until
`k` distinct indices were drawn; `fuel` bounds the retries on duplicate
draws.  `adaptive_select_and_score` only calls it with `k ≤ 1`, where the
first draw always succeeds, so `fuel = 1` gives the exact source semantics at
every call site of the engine. -/
def weighted_random_indices (o : RngOracle) (t : Nat) (fuel : Nat) (n k : Nat)
    (max_idx_inclusive : Option Int) : List Nat × Nat :=
  if n = 0 ∨ k = 0 then ([], t)
  else
    let max_idx : Nat :=
      match max_idx_inclusive with
      | none => n - 1
      | some m => (max 0 (min ((n : Int) - 1) m)).toNat
    let target := min k n
    let r := wri_loop o max_idx target fuel t []
    (py_sorted_nat r.1, r.2)

/-- The `SelectionMeta`-building return expression shared by every `return`
of `adaptive_select_and_score` (`none` models the `ValueError` that
`max(scored.keys(), ...)` raises on an empty `scored`). -/
def mkResult (ctx : EngineCtx) (st : EngineState) (cutoff : Int) :
    Option (Dict × SelectionMeta) :=
  match pyMaxKeys st.scored with
  | none => none
  | some best =>
    some (st.scored,
      ⟨ctx.budget, py_sorted_nat (dictKeys st.scored), st.probes, cutoff, best⟩)

/-- The ternary-style peak-search loop (step 2 of the engine). -/
def ternary_loop (ctx : EngineCtx) : Nat → Nat → Nat → EngineState → EngineState
  | 0, _, _, st => st
  | it + 1, lo, hi, st =>
    if ctx.budget ≤ st.scored.length ∨ hi - lo < 3 then st
    else
      let m1 := lo + (hi - lo) / 3
      let m2 := hi - (hi - lo) / 3
      let st := ensure_batch ctx st [(m1 : Int), (m2 : Int)]
      let p1 := ensure ctx st m1
      let p2 := ensure ctx p1.1 m2
      if pick_key p2.2 ≤ pick_key p1.2 then ternary_loop ctx it lo m2 p2.1
      else ternary_loop ctx it m1 hi p2.1

/-- The exponential forward walk looking for the first no-people frame
(step 3 of the engine).  Returns `(state, last_people, first_no_people)`.
The source loop doubles `step` each pass and stops once `step > n`, so it
runs at most `log2 n + 2` passes; the engine supplies `fuel = n + 2`, which
always suffices. -/
def walk_loop (ctx : EngineCtx) (best : Nat) :
    Nat → Nat → Nat → EngineState → EngineState × Nat × Option Nat
  | 0, _, last_people, st => (st, last_people, none)
  | fuel + 1, step, last_people, st =>
    if ctx.budget ≤ st.scored.length then (st, last_people, none)
    else
      let j := best + step
      if ctx.n ≤ j then (st, last_people, none)
      else
        let st := ensure_batch ctx st [(j : Int)]
        let p := ensure ctx st j
        if p.2.person_score ≤ ctx.no_people_threshold then (p.1, last_people, some j)
        else if ctx.n < step * 2 then (p.1, j, none)
        else walk_loop ctx best fuel (step * 2) j p.1

/-- The boundary binary search between `last_people` and `first_no_people`.
Returns `(state, a, b)`.  Each pass strictly shrinks `b - a`, so the
engine-supplied `fuel = b - a` always suffices. -/
def bin_loop (ctx : EngineCtx) : Nat → Nat → Nat → EngineState → EngineState × Nat × Nat
  | 0, a, b, st => (st, a, b)
  | fuel + 1, a, b, st =>
    if 1 < b - a ∧ st.scored.length < ctx.budget then
      let mid := (a + b) / 2
      let p := ensure ctx st mid
      if p.2.person_score ≤ ctx.no_people_threshold then bin_loop ctx fuel a mid p.1
      else bin_loop ctx fuel mid b p.1
    else (st, a, b)

/-- The look-ahead confirmation loop past the detected boundary.  Returns
`(state, look_ok)`. -/
def look_loop (ctx : EngineCtx) (boundary b : Nat) :
    List Nat → EngineState → EngineState × Bool
  | [], st => (st, true)
  | k :: ks, st =>
    let jj := min (ctx.n - 1) (b + k)
    if jj ≤ boundary ∨ ctx.budget ≤ st.scored.length then
      look_loop ctx boundary b ks st
    else
      let st := ensure_batch ctx st [(jj : Int)]
      let p := ensure ctx st jj
      if ctx.no_people_threshold < p.2.person_score then (p.1, false)
      else look_loop ctx boundary b ks p.1

/-- The symmetric-neighbour fill around the peak (step 4, first half).
`radius` starts at 1 and the loop runs while `radius ≤ max(3, budget)`, so
the engine-supplied `fuel = max 3 budget` always suffices. -/
def nbr_loop (ctx : EngineCtx) (best : Nat) (cutoff : Int) :
    Nat → Nat → EngineState → EngineState
  | 0, _, st => st
  | fuel + 1, radius, st =>
    if st.scored.length < ctx.budget ∧ radius ≤ max 3 ctx.budget then
      let batch := ([(best : Int) - radius, (best : Int) + radius]).filter
        (fun j => 0 ≤ j ∧ j ≤ cutoff ∧ st.scored.length < ctx.budget)
      nbr_loop ctx best cutoff fuel (radius + 1) (ensure_batch ctx st batch)
    else st

/-- The shuffled random fill over `[0, cutoff]` (step 4, second half). -/
def fill_loop (ctx : EngineCtx) : List Nat → EngineState → EngineState
  | [], st => st
  | j :: js, st =>
    if ctx.budget ≤ st.scored.length then st
    else fill_loop ctx js (ensure ctx st (j : Int)).1

/-- Step 1 of the engine (the `seeds` set construction, lines 131-140 of
`selection.py`): the sorted, deduplicated seed set and the rng call counter
after seeding.  `int((n - 1) * 0.75)` is exactly `3 * (n - 1) / 4` (0.75 and
the product are exact in double precision for every frame count the app can
produce). -/
def seed_batch (n budget : Nat) (o : RngOracle) : List Nat × Nat :=
  let base := [0, n / 2, n - 1]
  let k := min 1 (budget - 3)
  let early_max : Int := (3 * ((n : Int) - 1)) / 4
  let w := weighted_random_indices o 0 1 n k (some early_max)
  let seeded :=
    if 4 ≤ budget then
      let span : Nat := max 1 (n / 6)
      let r := o.randint w.2 (-(span : Int)) (span : Int)
      (base ++ w.1 ++ [clampIdx n ((n / 2 : Int) + r)], w.2 + 1)
    else (base ++ w.1, w.2)
  (py_sorted_set seeded.1, seeded.2)

/-- The `existing_no` / `existing_people` cutoff inference from previously
scored evidence (lines 168-176 of `selection.py`). -/
def cutoff_infer (n : Nat) (thr : Rat) (best : Nat) (scored : Dict) : Int :=
  let existing_no := (scored.filter
    (fun p => best < p.1 ∧ p.2.person_score ≤ thr)).map Prod.fst
  match listMin existing_no with
  | none => (n : Int) - 1
  | some first_no =>
    let existing_people := (scored.filter
      (fun p => p.1 < first_no ∧ thr < p.2.person_score)).map Prod.fst
    match listMax existing_people with
    | none => (n : Int) - 1
    | some m => (m : Int)

/-- The boundary refinement after the forward walk (the
`if first_no_people is not None:` block, lines 195-221 of `selection.py`):
binary search the people/no-people boundary, optionally confirm by look-ahead,
and commit the boundary as the cutoff only when the look-ahead agreed.
Returns the updated state and the cutoff. -/
def after_walk (ctx : EngineCtx) (cutoff1 : Int) (st3 : EngineState)
    (last_people : Nat) : Option Nat → EngineState × Int
  | none => (st3, cutoff1)
  | some first_no_people =>
    match bin_loop ctx (first_no_people - last_people) last_people
        first_no_people st3 with
    | (stB, a, b2) =>
      match (if stB.scored.length < ctx.budget then
          look_loop ctx a b2
            ((List.range ctx.lookahead_after_no_people).map (· + 1)) stB
        else (stB, true)) with
      | (stL, look_ok) => if look_ok then (stL, (a : Int)) else (stL, cutoff1)

/-- The shuffled random fill over `[0, cutoff]` followed by the final argmax
(step 4 second half, lines 235-252 of `selection.py`). -/
def fill_phase2 (ctx : EngineCtx) (o : RngOracle) (t : Nat) (cutoff : Int)
    (st5 : EngineState) : Option (Dict × SelectionMeta) :=
  mkResult ctx
    (if st5.scored.length < ctx.budget then
      fill_loop ctx (o.shuffle t (List.range ((cutoff + 1).toNat))) st5
    else st5) cutoff

/-- Step 4 of the engine: neighbour fill around the peak within the cutoff,
then the shuffled fill and the final argmax. -/
def fill_phase (ctx : EngineCtx) (o : RngOracle) (t best : Nat)
    (st4 : EngineState) (cutoff : Int) : Option (Dict × SelectionMeta) :=
  fill_phase2 ctx o t cutoff
    (if st4.scored.length < ctx.budget then
      nbr_loop ctx best cutoff (max 3 ctx.budget) 1 st4
    else st4)

/-- Steps 3-4 and the final return of the engine (everything after the
ternary peak search): cutoff detection, neighbour and shuffled budget fill,
final argmax.  `t` is the rng call counter reached by seeding (the shuffle is
the next and last rng call). -/
def tail_phase (ctx : EngineCtx) (o : RngOracle) (t : Nat) (st2 : EngineState) :
    Option (Dict × SelectionMeta) :=
  match pyMaxKeys st2.scored with
  | none => none
  | some best =>
    fill_phase ctx o t best
      (after_walk ctx (cutoff_infer ctx.n ctx.no_people_threshold best st2.scored)
        (walk_loop ctx best (ctx.n + 2) 1 best st2).1
        (walk_loop ctx best (ctx.n + 2) 1 best st2).2.1
        (walk_loop ctx best (ctx.n + 2) 1 best st2).2.2).1
      (after_walk ctx (cutoff_infer ctx.n ctx.no_people_threshold best st2.scored)
        (walk_loop ctx best (ctx.n + 2) 1 best st2).1
        (walk_loop ctx best (ctx.n + 2) 1 best st2).2.1
        (walk_loop ctx best (ctx.n + 2) 1 best st2).2.2).2

/-- The engine body over a fully normalised parameter record: the
`total_frames ≤ budget` exhaustive path, else seeding (step 1), the
post-seeding early return, the ternary peak search (step 2) and the tail
phases. -/
def engine_main (ctx : EngineCtx) (o : RngOracle) : Option (Dict × SelectionMeta) :=
  if ctx.n ≤ ctx.budget then
    mkResult ctx
      ((List.range ctx.n).foldl (fun st i => (ensure ctx st (Int.ofNat i)).1) ⟨[], []⟩)
      ((ctx.n : Int) - 1)
  else
    if ctx.budget ≤ (ensure_batch ctx ⟨[], []⟩
        ((seed_batch ctx.n ctx.budget o).1.map Int.ofNat)).scored.length then
      mkResult ctx (ensure_batch ctx ⟨[], []⟩
        ((seed_batch ctx.n ctx.budget o).1.map Int.ofNat)) ((ctx.n : Int) - 1)
    else
      tail_phase ctx o (seed_batch ctx.n ctx.budget o).2
        (ternary_loop ctx (min 6 (max 2 (ctx.budget / 2))) 0 (ctx.n - 1)
          (ensure_batch ctx ⟨[], []⟩
            ((seed_batch ctx.n ctx.budget o).1.map Int.ofNat)))

/-- `adaptive_select_and_score` from `selection.py`
(`budget = max(1, int(budget))` is applied here).  `none` models the
`ValueError` that the source's `max(scored.keys(), ...)` raises when
`scored` is empty (reached e.g. with `total_frames == 0`). -/
def adaptive_select_and_score (total_frames : Nat) (budget0 : Int) (o : RngOracle)
    (score_index : Nat → ScoreResult) (score_indices : Option BatchScorer)
    (no_people_threshold : Rat) (lookahead_after_no_people : Nat) :
    Option (Dict × SelectionMeta) :=
  engine_main
    ⟨total_frames, (max 1 budget0).toNat, score_index, score_indices,
      no_people_threshold, lookahead_after_no_people⟩ o

/-! ## `manager.py`: the per-index scoring wrapper `score_one` -/

/-- The dict returned by `provider.generate_data_from_image`, restricted to
the lookups `score_one` performs under the default field configuration
(`person_score`, `score`, `face_score`, `frame_score`, `pose`, `summary`);
a `none` field models an absent (or non-numeric, for the score fields —
`_safe_float` maps those to the default) key. -/
structure RawData where
  person_score : Option Rat
  score : Option Rat
  face_score : Option Rat
  frame_score : Option Rat
  pose : Option String
  summary : Option String
deriving DecidableEq, Repr

/-- `data = {}` after a provider failure. -/
def RawData.empty : RawData := ⟨none, none, none, none, none, none⟩

/-- `score_one` from `manager.py` (`_build_bundle`), minus logging and the
file-visibility wait: every provider exception is caught and replaced by an
empty dict, then the score fields are extracted with `_safe_float` defaults.
The event record and index pass-through are dropped (pure bookkeeping). -/
def score_one (provider : Nat → Except Unit RawData) (i : Nat) : ScoreResult :=
  let data := match provider i with
    | .ok d => d
    | .error _ => RawData.empty
  let person := (data.person_score.orElse (fun _ => data.score)).getD 0
  let face := data.face_score.getD 0
  let frame := data.frame_score.getD person
  let pose := pyStrLower (pyStrStrip (data.pose.getD ""))
  let summary := pyStrStrip (data.summary.getD "")
  ⟨person, face, frame, pose, summary⟩

/-! ## `bundle.py`: the diagnostic best-to-worst ranking -/

/-- The `ranked` list of `build_bundle_dict`:
`sorted(scored.items(), key=rank_key, reverse=True)` — a stable descending
sort of the scored entries by `rank_key`. -/
def ranked_pairs (scored : Dict) : List (Nat × ScoreResult) :=
  List.insertionSort (fun a b : Nat × ScoreResult => rank_key b.2 ≤ rank_key a.2)
    scored

/-- `ranked_indices_best_to_worst` from `build_bundle_dict`: the frame
indices of `ranked_pairs`, best to worst. -/
def ranked_indices (scored : Dict) : List Nat := (ranked_pairs scored).map Prod.fst

/-! ## Predicates used by the theorems -/

/-- The scored-batch contract of the spec's scoring-oracle interface: a batch
scorer returns results only for indices it was asked to score.  The
production batch scorer (`score_indices` in `manager.py`) satisfies this: it
fans the requested indices out to `score_one` and keys the returned dict by
those same indices. -/
def BatchKeysRequested (sb : Option BatchScorer) : Prop :=
  ∀ fb, sb = some fb → ∀ l kv, kv ∈ fb l → kv.1 ∈ l

/-- A batch scorer that scores exactly the requested indices, in request
order, with the same scoring function as the single-index scorer. -/
def BatchAgrees (sb : Option BatchScorer) (f : Nat → ScoreResult) : Prop :=
  ∀ fb, sb = some fb → ∀ l, fb l = l.map (fun i => (i, some (f i)))

/-- A batch scorer that delivers at least one result for a non-empty request
(the production batch scorer delivers one per requested index). -/
def NonOmitting (sb : Option BatchScorer) : Prop :=
  sb = none ∨ ∃ fb, sb = some fb ∧ ∀ l, l ≠ [] → ∃ kv ∈ fb l, kv.2.isSome

/-- State extension: the engine only ever appends to `scored` and `probes`. -/
def StExt (st st' : EngineState) : Prop :=
  (∃ d, st'.scored = st.scored ++ d) ∧ (∃ p, st'.probes = st.probes ++ p)

/-- The run-time engine invariant: the scored cache never exceeds the budget
and every cached or probed index is within `[0, n - 1]` (with the Python
convention `n - 1 = 0` for `n = 0`, never reached with a non-empty cache). -/
def EngineInv (ctx : EngineCtx) (st : EngineState) : Prop :=
  st.scored.length ≤ ctx.budget ∧
  (∀ k ∈ dictKeys st.scored, k ≤ ctx.n - 1) ∧
  (∀ p ∈ st.probes, p ≤ ctx.n - 1)

/-- `m` is the first element of `l` attaining the maximal key — the result
contract of Python's `max(l, key=f)`. -/
def FirstMaxBy (f : Nat → PickKey) (l : List Nat) (m : Nat) : Prop :=
  ∃ l1 l2, l = l1 ++ m :: l2 ∧ (∀ y ∈ l1, f y < f m) ∧ (∀ y ∈ l2, f y ≤ f m)

/-- `bundles.find?` by `run_id` — the record `mark_consumed` operates on. -/
def findRec (l : List StoredBundle) (run_id : String) : Option StoredBundle :=
  l.find? (fun b => b.run_id = run_id)

/-! ## Concrete instances used by witnesses and counterexamples -/

/-- A degenerate RNG oracle (every draw 0, shuffle is the identity). -/
def zeroOracle : RngOracle := ⟨fun _ => 0, fun _ _ _ => 0, fun _ l => l⟩

/-- A fixed score value. -/
def constScore : ScoreResult := ⟨1, 2, 3, "", "hi"⟩

/-- A constant single-index scorer. -/
def cS (_ : Nat) : ScoreResult := constScore

/-- A second score value with a higher face score. -/
def faceScore : ScoreResult := ⟨1, 5, 3, "", "hi"⟩

/-- A batch scorer that returns a result for index 5 although it was not
asked to score it (the engine merges returned keys unfiltered). -/
def extraKeyBatch : BatchScorer := fun _ => [(0, some constScore), (5, some constScore)]

/-- A batch scorer answering exactly the requested indices but delivering the
results in reversed request order (as the production scorer may: it merges
parallel futures in completion order). -/
def revBatch : BatchScorer := fun l => l.reverse.map (fun i => (i, some constScore))

/-- A provider whose scoring call always fails. -/
def failProv : Nat → Except Unit RawData := fun _ => .error ()

/-- A sample pair of store records under one key. -/
def recA : StoredBundle := ⟨"run-a", 100, false, none⟩

def recB : StoredBundle := ⟨"run-b", 90, false, none⟩

/-- A sample store with two records under `"garage"`. -/
def storeEx : Store := fun k => if k = "garage" then [recA, recB] else []

/-- A capture config whose `capture_max_s` is 0 (cap disabled in the code). -/
def cfgNoCap : CaptureConfig := ⟨1, 15, 0, 1⟩

/-- A capture state started at time 0. -/
def stStarted : CaptureState := ⟨"r", 0, [], 0, none, false, none⟩

/-- A scored dict with a tied maximal key at indices 5 and 2 (insertion order
5 first) used to exhibit the first-inserted tie-break. -/
def dictEx : Dict := [(5, faceScore), (2, faceScore), (0, constScore)]

/-! ## Lemmas: the store -/

theorem mcl_not_found {run_id : String} {t : Rat} :
    ∀ {l : List StoredBundle}, (∀ b ∈ l, b.run_id ≠ run_id) →
      mark_consumed_list run_id t l = (l, false) := by
  intro l h
  induction l with
  | nil => rfl
  | cons b bs ih =>
    have hb : ¬ b.run_id = run_id := h b (List.mem_cons_self _ _)
    have := ih (fun x hx => h x (List.mem_cons_of_mem _ hx))
    simp [mark_consumed_list, hb, this]

theorem mcl_found {run_id : String} {t : Rat} :
    ∀ {l : List StoredBundle}, (∃ b ∈ l, b.run_id = run_id) →
      (mark_consumed_list run_id t l).2 = true := by
  intro l h
  induction l with
  | nil => simp at h
  | cons b bs ih =>
    by_cases hb : b.run_id = run_id
    · simp [mark_consumed_list, hb]
    · have : ∃ x ∈ bs, x.run_id = run_id := by
        rcases h with ⟨x, hx, hxid⟩
        rcases List.mem_cons.mp hx with h1 | h1
        · exact absurd (h1 ▸ hxid) hb
        · exact ⟨x, h1, hxid⟩
      simp [mark_consumed_list, hb, ih this]

theorem mcl_idem (run_id : String) (t1 t2 : Rat) :
    ∀ l : List StoredBundle,
      mark_consumed_list run_id t2 (mark_consumed_list run_id t1 l).1 =
        ((mark_consumed_list run_id t1 l).1, (mark_consumed_list run_id t1 l).2) := by
  intro l
  induction l with
  | nil => rfl
  | cons b bs ih =>
    by_cases hb : b.run_id = run_id
    · by_cases hc : b.consumed
      · simp [mark_consumed_list, hb, hc]
      · simp [mark_consumed_list, hb, hc]
    · simp [mark_consumed_list, hb, ih]

theorem mcl_findRec {run_id : String} {t : Rat} :
    ∀ {l : List StoredBundle} {b0 : StoredBundle},
      findRec l run_id = some b0 → b0.consumed = false →
      findRec (mark_consumed_list run_id t l).1 run_id =
        some { b0 with consumed := true, consumed_at_utc := some t } := by
  intro l
  induction l with
  | nil => intro b0 h; simp [findRec] at h
  | cons b bs ih =>
    intro b0 hfind hcons
    by_cases hb : b.run_id = run_id
    · have hb0 : b = b0 := by simpa [findRec, List.find?, hb] using hfind
      subst hb0
      simp [mark_consumed_list, hb, hcons, findRec, List.find?]
    · have hfind' : findRec bs run_id = some b0 := by
        simpa [findRec, List.find?, hb] using hfind
      simpa [mark_consumed_list, hb, findRec, List.find?] using ih hfind' hcons

theorem mcl_shape (run_id : String) (t : Rat) :
    ∀ l : List StoredBundle,
      ((mark_consumed_list run_id t l).1.map (fun b => b.created_at_epoch) =
        l.map (fun b => b.created_at_epoch)) ∧
      (mark_consumed_list run_id t l).1.length = l.length := by
  intro l
  induction l with
  | nil => exact ⟨rfl, rfl⟩
  | cons b bs ih =>
    by_cases hb : b.run_id = run_id
    · by_cases hc : b.consumed <;> simp [mark_consumed_list, hb, hc]
    · simp [mark_consumed_list, hb, ih.1, ih.2]

theorem pairwise_of_map_created {l l' : List StoredBundle}
    (hm : l'.map (fun b => b.created_at_epoch) = l.map (fun b => b.created_at_epoch))
    (hp : List.Pairwise (fun a b => b.created_at_epoch ≤ a.created_at_epoch) l) :
    List.Pairwise (fun a b => b.created_at_epoch ≤ a.created_at_epoch) l' := by
  have h1 : List.Pairwise (fun a b : Rat => b ≤ a)
      (l.map (fun b => b.created_at_epoch)) := List.pairwise_map.mpr hp
  rw [← hm] at h1
  exact List.pairwise_map.mp h1

instance : IsTotal StoredBundle
    (fun a b => b.created_at_epoch ≤ a.created_at_epoch) :=
  ⟨fun a b => le_total b.created_at_epoch a.created_at_epoch⟩

instance : IsTrans StoredBundle
    (fun a b => b.created_at_epoch ≤ a.created_at_epoch) :=
  ⟨fun _ _ _ h1 h2 => le_trans h2 h1⟩

theorem sort_desc_sorted (l : List StoredBundle) :
    List.Pairwise (fun a b => b.created_at_epoch ≤ a.created_at_epoch)
      (sort_desc_by_created l) :=
  List.sorted_insertionSort _ l

theorem sort_desc_length (l : List StoredBundle) :
    (sort_desc_by_created l).length = l.length :=
  (List.perm_insertionSort _ l).length_eq

/-! ## Claim C7: idempotence of `mark_consumed` -/

/-- C7: for every store state containing a record with the given run id under
the given key, calling `mark_consumed` twice has the same observable effect
as calling it once — both calls return `true` and the second call leaves the
store (hence `consumed_at_utc`) unchanged; the first call sets
`consumed = true` and stamps `consumed_at_utc` on a not-yet-consumed record;
for an absent run id the operation returns `false` and changes nothing. -/
theorem c7_mark_consumed_idempotent (s : Store) (key run_id : String) (t1 t2 : Rat)
    (h : ∃ b ∈ s key, b.run_id = run_id) :
    (mark_consumed s key run_id t1).2 = true ∧
    (mark_consumed (mark_consumed s key run_id t1).1 key run_id t2).2 = true ∧
    (mark_consumed (mark_consumed s key run_id t1).1 key run_id t2).1 =
      (mark_consumed s key run_id t1).1 ∧
    (∀ b0, findRec (s key) run_id = some b0 → b0.consumed = false →
      findRec ((mark_consumed s key run_id t1).1 key) run_id =
        some { b0 with consumed := true, consumed_at_utc := some t1 }) ∧
    (∀ (s' : Store) (key' run_id' : String) (t' : Rat),
      (∀ b ∈ s' key', b.run_id ≠ run_id') →
      mark_consumed s' key' run_id' t' = (s', false)) := by
  refine ⟨mcl_found h, ?_, ?_, ?_, ?_⟩
  · show (mark_consumed_list run_id t2
      ((mark_consumed s key run_id t1).1 key)).2 = true
    have hks : (mark_consumed s key run_id t1).1 key =
        (mark_consumed_list run_id t1 (s key)).1 := by
      simp [mark_consumed]
    rw [hks, mcl_idem]
    exact mcl_found h
  · have hks : (mark_consumed s key run_id t1).1 key =
        (mark_consumed_list run_id t1 (s key)).1 := by
      simp [mark_consumed]
    funext k
    show (if k = key then (mark_consumed_list run_id t2
        ((mark_consumed s key run_id t1).1 key)).1
      else (mark_consumed s key run_id t1).1 k) = _
    by_cases hk : k = key
    · rw [if_pos hk, hks, mcl_idem, hk, hks]
    · rw [if_neg hk]
  · intro b0 hfind hcons
    have hks : (mark_consumed s key run_id t1).1 key =
        (mark_consumed_list run_id t1 (s key)).1 := by
      simp [mark_consumed]
    rw [hks]
    exact mcl_findRec hfind hcons
  · intro s' key' run_id' t' habsent
    have h1 : mark_consumed_list run_id' t' (s' key') = (s' key', false) :=
      mcl_not_found habsent
    unfold mark_consumed
    rw [h1]
    refine Prod.ext ?_ rfl
    funext k
    by_cases hk : k = key'
    · simp [hk]
    · simp [hk]

/-- Witness for C7: in a concrete two-record store, marking `"run-a"` twice
leaves the store exactly as after the first call. -/
theorem c7_witness :
    (mark_consumed (mark_consumed storeEx "garage" "run-a" 5).1 "garage" "run-a" 7).1 =
      (mark_consumed storeEx "garage" "run-a" 5).1 :=
  (c7_mark_consumed_idempotent storeEx "garage" "run-a" 5 7
    ⟨recA, by decide, by decide⟩).2.2.1

/-! ## Claim C8: the store ordering/cap invariant -/

/-- C8: the per-key invariant "sorted by `created_at_epoch` descending and at
most `cap` records" holds in the empty store and is preserved by every
mutating operation (`publish_bundle`, `mark_consumed`, `cleanup`), for every
key. -/
theorem c8_store_invariant (cap : Nat) (s : Store) (key run_id : String)
    (b : Bundle) (now t retention : Rat) (h : StoreInv cap s) :
    StoreInv cap emptyStore ∧
    StoreInv cap (publish_bundle cap s key b now) ∧
    StoreInv cap (mark_consumed s key run_id t).1 ∧
    StoreInv cap (cleanup s retention now) := by
  refine ⟨fun k => ⟨List.Pairwise.nil, Nat.zero_le _⟩, ?_, ?_, ?_⟩
  · intro k
    simp only [publish_bundle]
    by_cases hk : k = key
    · rw [if_pos hk]
      exact ⟨(sort_desc_sorted _).sublist (List.take_sublist _ _),
        List.length_take_le _ _⟩
    · rw [if_neg hk]
      exact h k
  · intro k
    simp only [mark_consumed]
    by_cases hk : k = key
    · rw [if_pos hk]
      have hsh := mcl_shape run_id t (s key)
      exact ⟨pairwise_of_map_created hsh.1 ((h key).1), hsh.2 ▸ (h key).2⟩
    · rw [if_neg hk]
      exact h k
  · intro k
    exact ⟨(h k).1.sublist (List.filter_sublist _),
      le_trans (List.length_filter_le _ _) (h k).2⟩

/-- Witness for C8: publishing into the (invariant-satisfying) empty store
preserves the invariant. -/
theorem c8_witness :
    StoreInv 2 (publish_bundle 2 emptyStore "garage" ⟨"run-c", some 120, none, none⟩ 130) :=
  (c8_store_invariant 2 emptyStore "garage" "x" ⟨"run-c", some 120, none, none⟩
    130 0 24 (fun _ => ⟨List.Pairwise.nil, Nat.zero_le _⟩)).2.1

/-! ## Claim C9: the capture hard timeout -/

/-- C9 (amended): whenever the configured cap is positive
(`capture_max_s > 0`; the code treats a non-positive cap as "no cap") and the
elapsed time since `started_ts` reaches `capture_max_s`, `should_stop_capture`
returns `true`, sets `timed_out := true` and stamps `ended_ts := now`,
regardless of the motion signal and of the off-since state. -/
theorem c9_capture_timeout (now : Rat) (cfg : CaptureConfig) (state : CaptureState)
    (motion_is_on : Bool) (hpos : 0 < cfg.capture_max_s)
    (helapsed : cfg.capture_max_s ≤ now - state.started_ts) :
    should_stop_capture now cfg state motion_is_on =
      ({ state with timed_out := true, ended_ts := some now }, true) := by
  unfold should_stop_capture
  rw [if_pos ⟨hpos, helapsed⟩]

/-- Witness for C9: a concrete 30-second cap reached at tick time 100 with
motion still on. -/
theorem c9_capture_timeout_witness :
    should_stop_capture 100 ⟨1, 15, 30, 1⟩ stStarted true =
      ({ stStarted with timed_out := true, ended_ts := some 100 }, true) :=
  c9_capture_timeout 100 ⟨1, 15, 30, 1⟩ stStarted true (by decide)
    (by simp [stStarted]; decide)

/-- Counterexample for C9 as frozen: with `capture_max_s = 0` the elapsed
time (100s) has reached `capture_max_s`, yet the tick neither stops the
capture nor sets `timed_out` (motion is on): the claim omits the
`capture_max_s > 0` guard of the code. -/
theorem c9_counterexample :
    cfgNoCap.capture_max_s ≤ (100 : Rat) - stStarted.started_ts ∧
    (should_stop_capture 100 cfgNoCap stStarted true).2 = false ∧
    (should_stop_capture 100 cfgNoCap stStarted true).1.timed_out = false := by
  refine ⟨?_, by decide, by decide⟩
  show (0 : Rat) ≤ 100 - 0
  norm_num

/-! ## Claim C1: `total_frames == 0` -/

/-- C1 (code behaviour at the failing input): for `total_frames = 0` — any
budget, seed oracle and scorers — `adaptive_select_and_score` does NOT return
a placeholder: it reaches `max(scored.keys(), ...)` with an empty `scored`
dict and raises `ValueError` (modelled as `none`).  The spec (§4.2, §7) and
the sibling implementation (`detection_summary.py`, the
`if not candidates: candidates = [{idx: 0, ...}]` block in
`_generate_bundle_from_candidates`) both require a synthetic zero-score
placeholder candidate instead. -/
theorem c1_zero_frames_raises (budget0 : Int) (o : RngOracle)
    (score_index : Nat → ScoreResult) (score_indices : Option BatchScorer)
    (thr : Rat) (lookahead : Nat) :
    adaptive_select_and_score 0 budget0 o score_index score_indices thr lookahead
      = none := by
  unfold adaptive_select_and_score engine_main
  split
  · rfl
  · rename_i hc
    exact absurd (Nat.zero_le _) hc

/-! ## Lemmas: dictionaries -/

theorem dictGet_cons (p : Nat × ScoreResult) (d : Dict) (k : Nat) :
    dictGet (p :: d) k = if p.1 = k then some p.2 else dictGet d k := by
  by_cases h : p.1 = k
  · simp [dictGet, List.find?_cons_of_pos, h]
  · simp [dictGet, List.find?_cons_of_neg, h]

theorem dictGet_append (d e : Dict) (k : Nat) :
    dictGet (d ++ e) k = ((dictGet d k).or (dictGet e k)) := by
  simp only [dictGet, List.find?_append]
  cases List.find? (fun p => p.1 = k) d <;> simp

theorem dictGet_append_of_some {d : Dict} {k : Nat} {r : ScoreResult}
    (h : dictGet d k = some r) (e : Dict) : dictGet (d ++ e) k = some r := by
  rw [dictGet_append, h]; rfl

theorem dictGet_append_of_none {d : Dict} {k : Nat} (h : dictGet d k = none)
    (e : Dict) : dictGet (d ++ e) k = dictGet e k := by
  rw [dictGet_append, h]; rfl

theorem find?_of_dictGet_none {d : Dict} {k : Nat} (h : dictGet d k = none) :
    List.find? (fun p => p.1 = k) d = none := by
  cases hf : List.find? (fun p => p.1 = k) d with
  | none => rfl
  | some q =>
    unfold dictGet at h
    rw [hf] at h
    cases h

theorem dictGet_eq_none_iff {d : Dict} {k : Nat} :
    dictGet d k = none ↔ k ∉ dictKeys d := by
  constructor
  · intro h hk
    rcases List.mem_map.mp hk with ⟨p, hp, hpk⟩
    have := List.find?_eq_none.mp (find?_of_dictGet_none h) p hp
    simp [hpk] at this
  · intro h
    have hf : List.find? (fun p => p.1 = k) d = none := by
      apply List.find?_eq_none.mpr
      intro p hp hpk
      exact h (List.mem_map.mpr ⟨p, hp, by simpa using hpk⟩)
    simp [dictGet, hf]

theorem mem_dictKeys_of_get {d : Dict} {k : Nat} {r : ScoreResult}
    (h : dictGet d k = some r) : k ∈ dictKeys d := by
  by_contra hk
  rw [dictGet_eq_none_iff.mpr hk] at h
  cases h

theorem dictKeys_append (d e : Dict) :
    dictKeys (d ++ e) = dictKeys d ++ dictKeys e := by
  simp [dictKeys]

theorem dictGet_singleton (k j : Nat) (v : ScoreResult) :
    dictGet [(k, v)] j = if k = j then some v else none := by
  simp [dictGet_cons, dictGet]

theorem dictGet_append_single_isSome (d : Dict) (k u : Nat) (r : ScoreResult) :
    (dictGet (d ++ [(k, r)]) u).isSome =
      ((dictGet d u).isSome || decide (u = k)) := by
  cases h : dictGet d u with
  | some v => rw [dictGet_append_of_some h]; simp
  | none =>
    rw [dictGet_append_of_none h, dictGet_singleton]
    by_cases hk : k = u
    · simp [hk]
    · simp [hk, Ne.symm hk]

theorem dictSet_fresh {d : Dict} {k : Nat} (h : dictGet d k = none)
    (v : ScoreResult) : dictSet d k v = d ++ [(k, v)] := by
  have hf : List.find? (fun p => p.1 = k) d = none := by
    cases hf : List.find? (fun p => p.1 = k) d with
    | none => rfl
    | some p => simp [dictGet, hf] at h
  simp [dictSet, hf]

theorem length_dictSet_le (d : Dict) (k : Nat) (v : ScoreResult) :
    (dictSet d k v).length ≤ d.length + 1 := by
  unfold dictSet
  split
  · simp
  · simp

theorem dictKeys_dictSet_subset (d : Dict) (k : Nat) (v : ScoreResult) :
    ∀ j ∈ dictKeys (dictSet d k v), j ∈ dictKeys d ∨ j = k := by
  intro j hj
  unfold dictSet at hj
  split at hj
  · rcases List.mem_map.mp hj with ⟨p, hp, hpj⟩
    rcases List.mem_map.mp hp with ⟨q, hq, hqp⟩
    by_cases hqk : q.1 = k
    · right; rw [← hpj, ← hqp]; simp [hqk]
    · left
      rw [← hpj, ← hqp]
      simp only [hqk, if_false]
      exact List.mem_map.mpr ⟨q, hq, rfl⟩
  · rw [dictKeys_append] at hj
    rcases List.mem_append.mp hj with h | h
    · exact Or.inl h
    · right; simpa [dictKeys] using h

theorem foldl_dictSet_fresh (g : Nat → ScoreResult) :
    ∀ (l : List Nat) (d : Dict), l.Nodup → (∀ j ∈ l, dictGet d j = none) →
      l.foldl (fun d ii => dictSet d ii (g ii)) d =
        d ++ l.map (fun i => (i, g i)) := by
  intro l
  induction l with
  | nil => intro d _ _; simp
  | cons i is ih =>
    intro d hnd hfresh
    have hfi : dictGet d i = none := hfresh i (List.mem_cons_self _ _)
    have hstep : dictSet d i (g i) = d ++ [(i, g i)] := dictSet_fresh hfi _
    simp only [List.foldl_cons, hstep]
    rw [ih (d ++ [(i, g i)]) (List.Nodup.of_cons hnd) ?_]
    · simp
    · intro j hj
      have hji : j ≠ i := by
        intro he
        exact (List.nodup_cons.mp hnd).1 (he ▸ hj)
      rw [dictGet_append_of_none (hfresh j (List.mem_cons_of_mem _ hj)),
        dictGet_singleton]
      simp [Ne.symm hji]

/-! ## Lemmas: `clampIdx`, `buildUniq` and `mergeGot` -/

theorem clampIdx_le (n : Nat) (ii : Int) : clampIdx n ii ≤ n - 1 := by
  unfold clampIdx
  omega

theorem clampIdx_of_le {n j : Nat} (h : j ≤ n - 1) : clampIdx n (j : Int) = j := by
  unfold clampIdx
  omega

theorem clampIdx_of_lt {n j : Nat} (h : j < n) : clampIdx n (j : Int) = j := by
  apply clampIdx_of_le
  omega

theorem buildUniqAux_props (n : Nat) (d : Dict) :
    ∀ (idxs : List Int) (acc : List Nat), acc.Nodup →
      (∀ j ∈ acc, dictGet d j = none ∧ j ≤ n - 1) →
      (buildUniqAux n d idxs acc).Nodup ∧
      ∀ j ∈ buildUniqAux n d idxs acc, dictGet d j = none ∧ j ≤ n - 1 := by
  intro idxs
  induction idxs with
  | nil => intro acc h1 h2; exact ⟨h1, h2⟩
  | cons i is ih =>
    intro acc h1 h2
    unfold buildUniqAux
    split
    · exact ih acc h1 h2
    · rename_i hc
      have hc' : ¬ ((dictGet d (clampIdx n i)).isSome = true) ∧
          clampIdx n i ∉ acc := by
        constructor
        · exact fun h => hc (Or.inl h)
        · exact fun h => hc (Or.inr h)
      have hfresh : dictGet d (clampIdx n i) = none := by
        cases hg : dictGet d (clampIdx n i) with
        | none => rfl
        | some r => exact absurd (by simp [hg]) hc'.1
      have hnd : (acc ++ [clampIdx n i]).Nodup := by
        rw [List.nodup_append]
        refine ⟨h1, List.nodup_singleton _, ?_⟩
        intro a ha hb
        rw [List.mem_singleton] at hb
        exact hc'.2 (hb ▸ ha)
      apply ih
      · exact hnd
      · intro j hj
        rcases List.mem_append.mp hj with h | h
        · exact h2 j h
        · rw [List.mem_singleton] at h
          exact h ▸ ⟨hfresh, clampIdx_le n i⟩

theorem buildUniq_props (n : Nat) (d : Dict) (indices : List Int) :
    (buildUniq n d indices).Nodup ∧
    ∀ j ∈ buildUniq n d indices, dictGet d j = none ∧ j ≤ n - 1 :=
  buildUniqAux_props n d indices [] List.nodup_nil (by intro j hj; cases hj)

theorem mergeGot_cons_none (d : Dict) (k : Nat)
    (rest : List (Nat × Option ScoreResult)) :
    mergeGot d ((k, none) :: rest) = mergeGot d rest := rfl

theorem mergeGot_cons_some_present {d : Dict} {k : Nat}
    (h : (dictGet d k).isSome = true) (r : ScoreResult)
    (rest : List (Nat × Option ScoreResult)) :
    mergeGot d ((k, some r) :: rest) = mergeGot d rest := by
  simp [mergeGot, h]

theorem mergeGot_cons_some_fresh {d : Dict} {k : Nat}
    (h : ¬ (dictGet d k).isSome = true) (r : ScoreResult)
    (rest : List (Nat × Option ScoreResult)) :
    mergeGot d ((k, some r) :: rest) = mergeGot (d ++ [(k, r)]) rest := by
  simp [mergeGot, h]

theorem mergeGot_append_form :
    ∀ (got : List (Nat × Option ScoreResult)) (d : Dict),
      ∃ e, mergeGot d got = d ++ e ∧ ∀ kv ∈ e, kv.1 ∈ got.map Prod.fst := by
  intro got
  induction got with
  | nil => intro d; exact ⟨[], by simp [mergeGot], by intro kv h; cases h⟩
  | cons kv rest ih =>
    intro d
    obtain ⟨k, v⟩ := kv
    cases v with
    | none =>
      obtain ⟨e, he, hm⟩ := ih d
      exact ⟨e, by rw [mergeGot_cons_none, he], fun kv h =>
        List.mem_cons_of_mem _ (hm kv h)⟩
    | some r =>
      by_cases hk : (dictGet d k).isSome = true
      · obtain ⟨e, he, hm⟩ := ih d
        exact ⟨e, by rw [mergeGot_cons_some_present hk, he],
          fun kv h => List.mem_cons_of_mem _ (hm kv h)⟩
      · obtain ⟨e, he, hm⟩ := ih (d ++ [(k, r)])
        refine ⟨(k, r) :: e, ?_, ?_⟩
        · rw [mergeGot_cons_some_fresh hk, he]
          simp
        · intro kv h
          rcases List.mem_cons.mp h with h | h
          · subst h; simp
          · exact List.mem_cons_of_mem _ (hm kv h)

theorem length_filter_drop_key {k : Nat} {p : Nat → Bool} :
    ∀ {U : List Nat}, U.Nodup → k ∈ U → p k = true →
      (U.filter (fun u => p u && !(decide (u = k)))).length + 1 =
        (U.filter p).length := by
  intro U
  induction U with
  | nil => intro _ h; cases h
  | cons a as ih =>
    intro hnd ha hpk
    by_cases hak : a = k
    · have hnotin : a ∉ as := (List.nodup_cons.mp hnd).1
      have hcong : as.filter (fun u => p u && !(decide (u = k))) = as.filter p := by
        apply List.filter_congr
        intro x hx
        have hxk : ¬ (x = k) := fun he => hnotin (hak ▸ he ▸ hx)
        simp [hxk]
      have hpa : p a = true := by rw [hak]; exact hpk
      simp [List.filter_cons, hpa, hak, hcong, hpk]
    · have hks : k ∈ as := by
        rcases List.mem_cons.mp ha with h | h
        · exact absurd h.symm hak
        · exact h
      have ihh := ih (List.Nodup.of_cons hnd) hks hpk
      by_cases hpa : p a = true
      · simp only [List.filter_cons]
        rw [if_pos (by simp [hpa, hak]), if_pos (by simp [hpa])]
        simp only [List.length_cons]
        omega
      · have hpa' : p a = false := by simpa using hpa
        simp only [List.filter_cons]
        rw [if_neg (by simp [hpa']), if_neg (by simp [hpa'])]
        exact ihh

theorem mergeGot_length :
    ∀ (got : List (Nat × Option ScoreResult)) (d : Dict) (U : List Nat),
      U.Nodup → (∀ kv ∈ got, kv.1 ∈ U) →
      (mergeGot d got).length ≤
        d.length + (U.filter (fun u => !(dictGet d u).isSome)).length := by
  intro got
  induction got with
  | nil => intro d U _ _; simp [mergeGot]
  | cons kv rest ih =>
    intro d U hU hkeys
    obtain ⟨k, v⟩ := kv
    have hkeys' : ∀ kv ∈ rest, kv.1 ∈ U := fun kv h =>
      hkeys kv (List.mem_cons_of_mem _ h)
    cases v with
    | none =>
      rw [mergeGot_cons_none]
      exact ih d U hU hkeys'
    | some r =>
      by_cases hk : (dictGet d k).isSome = true
      · rw [mergeGot_cons_some_present hk]
        exact ih d U hU hkeys'
      · have hkU : k ∈ U := hkeys (k, some r) (List.mem_cons_self _ _)
        rw [mergeGot_cons_some_fresh hk]
        have hrec := ih (d ++ [(k, r)]) U hU hkeys'
        have hfilt : U.filter (fun u => !(dictGet (d ++ [(k, r)]) u).isSome) =
            U.filter (fun u => (!(dictGet d u).isSome) && !(decide (u = k))) := by
          apply List.filter_congr
          intro x hx
          rw [dictGet_append_single_isSome]
          cases hdx : (dictGet d x).isSome <;> simp
        have hcount := length_filter_drop_key (p := fun u => !(dictGet d u).isSome)
          hU hkU (by simp [hk])
        rw [hfilt] at hrec
        calc (mergeGot (d ++ [(k, r)]) rest).length
            ≤ (d ++ [(k, r)]).length +
              (U.filter (fun u => (!(dictGet d u).isSome) &&
                !(decide (u = k)))).length := hrec
          _ = d.length + ((U.filter (fun u => (!(dictGet d u).isSome) &&
              !(decide (u = k)))).length + 1) := by simp; omega
          _ = d.length + (U.filter (fun u => !(dictGet d u).isSome)).length := by
              rw [hcount]

theorem mergeGot_keys_subset :
    ∀ (got : List (Nat × Option ScoreResult)) (d : Dict),
      ∀ j ∈ dictKeys (mergeGot d got), j ∈ dictKeys d ∨ j ∈ got.map Prod.fst := by
  intro got d j hj
  obtain ⟨e, he, hm⟩ := mergeGot_append_form got d
  rw [he, dictKeys_append] at hj
  rcases List.mem_append.mp hj with h | h
  · exact Or.inl h
  · rcases List.mem_map.mp h with ⟨kv, hkv, hkvj⟩
    exact Or.inr (hkvj ▸ hm kv hkv)

/-! ## Lemmas: `ensure_batch` and `ensure` -/

theorem stExt_refl (st : EngineState) : StExt st st :=
  ⟨⟨[], by simp⟩, ⟨[], by simp⟩⟩

theorem stExt_trans {a b c : EngineState} (h1 : StExt a b) (h2 : StExt b c) :
    StExt a c := by
  obtain ⟨⟨d1, hd1⟩, ⟨p1, hp1⟩⟩ := h1
  obtain ⟨⟨d2, hd2⟩, ⟨p2, hp2⟩⟩ := h2
  exact ⟨⟨d1 ++ d2, by rw [hd2, hd1, List.append_assoc]⟩,
    ⟨p1 ++ p2, by rw [hp2, hp1, List.append_assoc]⟩⟩

theorem take_ne_nil_of_pos {l : List Nat} (h : ¬ l.isEmpty = true) {r : Nat}
    (hr : 0 < r) : l.take r ≠ [] := by
  cases l with
  | nil => simp at h
  | cons a as =>
    cases r with
    | zero => omega
    | succ r => simp [List.take]

/-- Case analysis for `ensure_batch`: either a no-op, or a run on a
non-empty, duplicate-free, fresh, in-range, budget-truncated batch. -/
theorem ensure_batch_cases (ctx : EngineCtx) (st : EngineState) (idxs : List Int) :
    ensure_batch ctx st idxs = st ∨
    ∃ uniq : List Nat, uniq ≠ [] ∧ uniq.Nodup ∧
      (∀ j ∈ uniq, dictGet st.scored j = none ∧ j ≤ ctx.n - 1) ∧
      uniq.length ≤ ctx.budget - st.scored.length ∧
      st.scored.length < ctx.budget ∧
      ensure_batch ctx st idxs = ensure_batch_run ctx st uniq := by
  unfold ensure_batch
  split
  · exact Or.inl rfl
  · rename_i h1
    split
    · exact Or.inl rfl
    · rename_i h2
      right
      have hlt : st.scored.length < ctx.budget := by
        have h : ¬ ctx.budget ≤ st.scored.length := fun hc => h1 (Or.inr hc)
        omega
      have hprops := buildUniq_props ctx.n st.scored idxs
      refine ⟨(buildUniq ctx.n st.scored idxs).take (ctx.budget - st.scored.length),
        take_ne_nil_of_pos h2 (by omega), hprops.1.sublist (List.take_sublist _ _),
        ?_, List.length_take_le _ _, hlt, rfl⟩
      intro j hj
      exact hprops.2 j (List.take_subset _ _ hj)

theorem ensure_batch_run_ext (ctx : EngineCtx) (st : EngineState)
    (uniq : List Nat) (hnd : uniq.Nodup)
    (hfresh : ∀ j ∈ uniq, dictGet st.scored j = none) :
    StExt st (ensure_batch_run ctx st uniq) := by
  unfold ensure_batch_run
  cases hsb : ctx.score_indices with
  | some f =>
    obtain ⟨e, he, _⟩ := mergeGot_append_form (f uniq) st.scored
    exact ⟨⟨e, by simp [he]⟩, ⟨uniq, rfl⟩⟩
  | none =>
    rw [foldl_dictSet_fresh ctx.score_index uniq st.scored hnd hfresh]
    exact ⟨⟨_, rfl⟩, ⟨uniq, rfl⟩⟩

theorem ensure_batch_ext (ctx : EngineCtx) (st : EngineState) (idxs : List Int) :
    StExt st (ensure_batch ctx st idxs) := by
  rcases ensure_batch_cases ctx st idxs with h | ⟨uniq, _, hnd, hfr, _, _, h⟩
  · rw [h]; exact stExt_refl st
  · rw [h]
    exact ensure_batch_run_ext ctx st uniq hnd (fun j hj => (hfr j hj).1)

theorem ensure_batch_inv (ctx : EngineCtx) (st : EngineState) (idxs : List Int)
    (hb : BatchKeysRequested ctx.score_indices) (hinv : EngineInv ctx st) :
    EngineInv ctx (ensure_batch ctx st idxs) := by
  rcases ensure_batch_cases ctx st idxs with h | ⟨uniq, _, hnd, hfr, hlen, hlt, h⟩
  · rw [h]; exact hinv
  · rw [h]
    obtain ⟨hl, hk, hp⟩ := hinv
    cases hsb : ctx.score_indices with
    | some f =>
      simp only [ensure_batch_run, hsb]
      refine ⟨?_, ?_, ?_⟩
      · show (mergeGot st.scored (f uniq)).length ≤ ctx.budget
        have hkeys : ∀ kv ∈ f uniq, kv.1 ∈ uniq := hb f hsb uniq
        have hml := mergeGot_length (f uniq) st.scored uniq hnd hkeys
        have hfl : (uniq.filter
            (fun u => !(dictGet st.scored u).isSome)).length ≤ uniq.length :=
          List.length_filter_le _ _
        omega
      · intro j hj
        rcases mergeGot_keys_subset (f uniq) st.scored j hj with hmem | hmem
        · exact hk j hmem
        · rcases List.mem_map.mp hmem with ⟨kv, hkv, hkvj⟩
          have := (hfr kv.1 (hb f hsb uniq kv hkv)).2
          rw [hkvj] at this
          exact this
      · intro p hp'
        rcases List.mem_append.mp hp' with hmem | hmem
        · exact hp p hmem
        · exact (hfr p hmem).2
    | none =>
      simp only [ensure_batch_run, hsb]
      rw [foldl_dictSet_fresh ctx.score_index uniq st.scored hnd
        (fun j hj => (hfr j hj).1)]
      refine ⟨?_, ?_, ?_⟩
      · show (st.scored ++ uniq.map (fun i => (i, ctx.score_index i))).length ≤ ctx.budget
        simp only [List.length_append, List.length_map]
        omega
      · intro j hj
        rw [dictKeys_append] at hj
        rcases List.mem_append.mp hj with hmem | hmem
        · exact hk j hmem
        · have hju : j ∈ uniq := by
            rcases List.mem_map.mp hmem with ⟨q, hq, hqj⟩
            rcases List.mem_map.mp hq with ⟨u, hu, huq⟩
            rw [← hqj, ← huq]
            exact hu
          exact (hfr j hju).2
      · intro p hp'
        rcases List.mem_append.mp hp' with hmem | hmem
        · exact hp p hmem
        · exact (hfr p hmem).2

theorem ensure_fst (ctx : EngineCtx) (st : EngineState) (i : Int) :
    (ensure ctx st i).1 = st ∨
    (ensure ctx st i).1 = ensure_batch ctx st [(clampIdx ctx.n i : Int)] := by
  unfold ensure
  cases hg : dictGet st.scored (clampIdx ctx.n i) with
  | some r => exact Or.inl rfl
  | none =>
    by_cases hbud : ctx.budget ≤ st.scored.length
    · rw [if_pos hbud]; exact Or.inl rfl
    · rw [if_neg hbud]; exact Or.inr rfl

theorem ensure_ext (ctx : EngineCtx) (st : EngineState) (i : Int) :
    StExt st (ensure ctx st i).1 := by
  rcases ensure_fst ctx st i with h | h
  · rw [h]; exact stExt_refl st
  · rw [h]; exact ensure_batch_ext ctx st _

theorem ensure_inv (ctx : EngineCtx) (st : EngineState) (i : Int)
    (hb : BatchKeysRequested ctx.score_indices) (hinv : EngineInv ctx st) :
    EngineInv ctx (ensure ctx st i).1 := by
  rcases ensure_fst ctx st i with h | h
  · rw [h]; exact hinv
  · rw [h]; exact ensure_batch_inv ctx st _ hb hinv

/-! ## Lemmas: the engine loops preserve extension and the invariant -/

theorem ternary_loop_ext (ctx : EngineCtx) :
    ∀ (it lo hi : Nat) (st : EngineState), StExt st (ternary_loop ctx it lo hi st) := by
  intro it
  induction it with
  | zero => intro lo hi st; exact stExt_refl st
  | succ it ih =>
    intro lo hi st
    simp only [ternary_loop]
    split
    · exact stExt_refl st
    · split
      · exact stExt_trans (stExt_trans (stExt_trans (ensure_batch_ext ctx st _)
          (ensure_ext ctx _ _)) (ensure_ext ctx _ _)) (ih _ _ _)
      · exact stExt_trans (stExt_trans (stExt_trans (ensure_batch_ext ctx st _)
          (ensure_ext ctx _ _)) (ensure_ext ctx _ _)) (ih _ _ _)

theorem ternary_loop_inv (ctx : EngineCtx)
    (hb : BatchKeysRequested ctx.score_indices) :
    ∀ (it lo hi : Nat) (st : EngineState), EngineInv ctx st →
      EngineInv ctx (ternary_loop ctx it lo hi st) := by
  intro it
  induction it with
  | zero => intro lo hi st h; exact h
  | succ it ih =>
    intro lo hi st h
    simp only [ternary_loop]
    split
    · exact h
    · split
      · exact ih _ _ _ (ensure_inv ctx _ _ hb (ensure_inv ctx _ _ hb
          (ensure_batch_inv ctx st _ hb h)))
      · exact ih _ _ _ (ensure_inv ctx _ _ hb (ensure_inv ctx _ _ hb
          (ensure_batch_inv ctx st _ hb h)))

theorem walk_loop_ext (ctx : EngineCtx) (best : Nat) :
    ∀ (fuel step last_people : Nat) (st : EngineState),
      StExt st (walk_loop ctx best fuel step last_people st).1 := by
  intro fuel
  induction fuel with
  | zero => intro step last st; exact stExt_refl st
  | succ fuel ih =>
    intro step last st
    simp only [walk_loop]
    split
    · exact stExt_refl st
    · split
      · exact stExt_refl st
      · split
        · exact stExt_trans (ensure_batch_ext ctx st _) (ensure_ext ctx _ _)
        · split
          · exact stExt_trans (ensure_batch_ext ctx st _) (ensure_ext ctx _ _)
          · exact stExt_trans (stExt_trans (ensure_batch_ext ctx st _)
              (ensure_ext ctx _ _)) (ih _ _ _)

theorem walk_loop_inv (ctx : EngineCtx) (best : Nat)
    (hb : BatchKeysRequested ctx.score_indices) :
    ∀ (fuel step last_people : Nat) (st : EngineState), EngineInv ctx st →
      EngineInv ctx (walk_loop ctx best fuel step last_people st).1 := by
  intro fuel
  induction fuel with
  | zero => intro step last st h; exact h
  | succ fuel ih =>
    intro step last st h
    simp only [walk_loop]
    split
    · exact h
    · split
      · exact h
      · split
        · exact ensure_inv ctx _ _ hb (ensure_batch_inv ctx st _ hb h)
        · split
          · exact ensure_inv ctx _ _ hb (ensure_batch_inv ctx st _ hb h)
          · exact ih _ _ _ (ensure_inv ctx _ _ hb (ensure_batch_inv ctx st _ hb h))

theorem bin_loop_ext (ctx : EngineCtx) :
    ∀ (fuel a b : Nat) (st : EngineState), StExt st (bin_loop ctx fuel a b st).1 := by
  intro fuel
  induction fuel with
  | zero => intro a b st; exact stExt_refl st
  | succ fuel ih =>
    intro a b st
    simp only [bin_loop]
    split
    · split
      · exact stExt_trans (ensure_ext ctx st _) (ih _ _ _)
      · exact stExt_trans (ensure_ext ctx st _) (ih _ _ _)
    · exact stExt_refl st

theorem bin_loop_inv (ctx : EngineCtx)
    (hb : BatchKeysRequested ctx.score_indices) :
    ∀ (fuel a b : Nat) (st : EngineState), EngineInv ctx st →
      EngineInv ctx (bin_loop ctx fuel a b st).1 := by
  intro fuel
  induction fuel with
  | zero => intro a b st h; exact h
  | succ fuel ih =>
    intro a b st h
    simp only [bin_loop]
    split
    · split
      · exact ih _ _ _ (ensure_inv ctx st _ hb h)
      · exact ih _ _ _ (ensure_inv ctx st _ hb h)
    · exact h

theorem look_loop_ext (ctx : EngineCtx) (boundary b : Nat) :
    ∀ (ks : List Nat) (st : EngineState), StExt st (look_loop ctx boundary b ks st).1 := by
  intro ks
  induction ks with
  | nil => intro st; exact stExt_refl st
  | cons k ks ih =>
    intro st
    simp only [look_loop]
    split
    · exact ih st
    · split
      · exact stExt_trans (ensure_batch_ext ctx st _) (ensure_ext ctx _ _)
      · exact stExt_trans (stExt_trans (ensure_batch_ext ctx st _)
          (ensure_ext ctx _ _)) (ih _)

theorem look_loop_inv (ctx : EngineCtx) (boundary b : Nat)
    (hb : BatchKeysRequested ctx.score_indices) :
    ∀ (ks : List Nat) (st : EngineState), EngineInv ctx st →
      EngineInv ctx (look_loop ctx boundary b ks st).1 := by
  intro ks
  induction ks with
  | nil => intro st h; exact h
  | cons k ks ih =>
    intro st h
    simp only [look_loop]
    split
    · exact ih st h
    · split
      · exact ensure_inv ctx _ _ hb (ensure_batch_inv ctx st _ hb h)
      · exact ih _ (ensure_inv ctx _ _ hb (ensure_batch_inv ctx st _ hb h))

theorem nbr_loop_ext (ctx : EngineCtx) (best : Nat) (cutoff : Int) :
    ∀ (fuel radius : Nat) (st : EngineState),
      StExt st (nbr_loop ctx best cutoff fuel radius st) := by
  intro fuel
  induction fuel with
  | zero => intro radius st; exact stExt_refl st
  | succ fuel ih =>
    intro radius st
    simp only [nbr_loop]
    split
    · exact stExt_trans (ensure_batch_ext ctx st _) (ih _ _)
    · exact stExt_refl st

theorem nbr_loop_inv (ctx : EngineCtx) (best : Nat) (cutoff : Int)
    (hb : BatchKeysRequested ctx.score_indices) :
    ∀ (fuel radius : Nat) (st : EngineState), EngineInv ctx st →
      EngineInv ctx (nbr_loop ctx best cutoff fuel radius st) := by
  intro fuel
  induction fuel with
  | zero => intro radius st h; exact h
  | succ fuel ih =>
    intro radius st h
    simp only [nbr_loop]
    split
    · exact ih _ _ (ensure_batch_inv ctx st _ hb h)
    · exact h

theorem fill_loop_ext (ctx : EngineCtx) :
    ∀ (js : List Nat) (st : EngineState), StExt st (fill_loop ctx js st) := by
  intro js
  induction js with
  | nil => intro st; exact stExt_refl st
  | cons j js ih =>
    intro st
    simp only [fill_loop]
    split
    · exact stExt_refl st
    · exact stExt_trans (ensure_ext ctx st _) (ih _)

theorem fill_loop_inv (ctx : EngineCtx)
    (hb : BatchKeysRequested ctx.score_indices) :
    ∀ (js : List Nat) (st : EngineState), EngineInv ctx st →
      EngineInv ctx (fill_loop ctx js st) := by
  intro js
  induction js with
  | nil => intro st h; exact h
  | cons j js ih =>
    intro st h
    simp only [fill_loop]
    split
    · exact h
    · exact ih _ (ensure_inv ctx st _ hb h)

/-! ## Lemmas: engine result shape -/

theorem mkResult_eq_some {ctx : EngineCtx} {st : EngineState} {c : Int}
    {r : Dict × SelectionMeta} (h : mkResult ctx st c = some r) :
    r.1 = st.scored ∧ r.2.budget = ctx.budget ∧
    r.2.scored_indices = py_sorted_nat (dictKeys st.scored) ∧
    r.2.probes = st.probes ∧ r.2.cutoff_idx_inclusive = c ∧
    pyMaxKeys st.scored = some r.2.best_idx := by
  unfold mkResult at h
  cases hm : pyMaxKeys st.scored with
  | none => rw [hm] at h; cases h
  | some best =>
    rw [hm] at h
    have hr := (Option.some.inj h).symm
    subst hr
    exact ⟨rfl, rfl, rfl, rfl, rfl, rfl⟩

theorem after_walk_ext (ctx : EngineCtx) (cutoff1 : Int) (st3 : EngineState)
    (last_people : Nat) (fno : Option Nat) :
    StExt st3 (after_walk ctx cutoff1 st3 last_people fno).1 := by
  cases fno with
  | none => exact stExt_refl st3
  | some fnp =>
    have hbl := bin_loop_ext ctx (fnp - last_people) last_people fnp st3
    simp only [after_walk]
    generalize hB : bin_loop ctx (fnp - last_people) last_people fnp st3 = B at hbl ⊢
    obtain ⟨stB, a, b2⟩ := B
    dsimp only at hbl ⊢
    by_cases hc : stB.scored.length < ctx.budget
    · rw [if_pos hc]
      have hlk := look_loop_ext ctx a b2
        ((List.range ctx.lookahead_after_no_people).map (· + 1)) stB
      generalize hL : look_loop ctx a b2
        ((List.range ctx.lookahead_after_no_people).map (· + 1)) stB = L at hlk ⊢
      obtain ⟨stL, ok⟩ := L
      dsimp only at hlk ⊢
      cases ok
      · rw [if_neg (by simp)]
        exact stExt_trans hbl hlk
      · rw [if_pos rfl]
        exact stExt_trans hbl hlk
    · rw [if_neg hc]
      rw [if_pos rfl]
      exact hbl

theorem after_walk_inv (ctx : EngineCtx) (cutoff1 : Int) (st3 : EngineState)
    (last_people : Nat) (fno : Option Nat)
    (hb : BatchKeysRequested ctx.score_indices) (hinv : EngineInv ctx st3) :
    EngineInv ctx (after_walk ctx cutoff1 st3 last_people fno).1 := by
  cases fno with
  | none => exact hinv
  | some fnp =>
    have hbl := bin_loop_inv ctx hb (fnp - last_people) last_people fnp st3 hinv
    simp only [after_walk]
    generalize hB : bin_loop ctx (fnp - last_people) last_people fnp st3 = B at hbl ⊢
    obtain ⟨stB, a, b2⟩ := B
    dsimp only at hbl ⊢
    by_cases hc : stB.scored.length < ctx.budget
    · rw [if_pos hc]
      have hlk := look_loop_inv ctx a b2 hb
        ((List.range ctx.lookahead_after_no_people).map (· + 1)) stB hbl
      generalize hL : look_loop ctx a b2
        ((List.range ctx.lookahead_after_no_people).map (· + 1)) stB = L at hlk ⊢
      obtain ⟨stL, ok⟩ := L
      dsimp only at hlk ⊢
      cases ok
      · rw [if_neg (by simp)]
        exact hlk
      · rw [if_pos rfl]
        exact hlk
    · rw [if_neg hc]
      rw [if_pos rfl]
      exact hbl

theorem fill_phase_shape {ctx : EngineCtx} {o : RngOracle} {t best : Nat}
    {st4 : EngineState} {cutoff : Int} {r : Dict × SelectionMeta}
    (h : fill_phase ctx o t best st4 cutoff = some r) :
    ∃ st6, StExt st4 st6 ∧ mkResult ctx st6 cutoff = some r ∧
      (BatchKeysRequested ctx.score_indices → EngineInv ctx st4 →
        EngineInv ctx st6) := by
  unfold fill_phase fill_phase2 at h
  set st5 := (if st4.scored.length < ctx.budget then
    nbr_loop ctx best cutoff (max 3 ctx.budget) 1 st4 else st4) with hst5
  refine ⟨_, ?_, h, ?_⟩
  · apply stExt_trans (b := st5)
    · rw [hst5]
      split
      · exact nbr_loop_ext ctx best cutoff _ _ st4
      · exact stExt_refl st4
    · split
      · exact fill_loop_ext ctx _ _
      · exact stExt_refl _
  · intro hb hinv
    have h5 : EngineInv ctx st5 := by
      rw [hst5]
      split
      · exact nbr_loop_inv ctx best cutoff hb _ _ st4 hinv
      · exact hinv
    split
    · exact fill_loop_inv ctx hb _ _ h5
    · exact h5

theorem tail_phase_shape {ctx : EngineCtx} {o : RngOracle} {t : Nat}
    {st2 : EngineState} {r : Dict × SelectionMeta}
    (h : tail_phase ctx o t st2 = some r) :
    ∃ st' c, StExt st2 st' ∧ mkResult ctx st' c = some r ∧
      (BatchKeysRequested ctx.score_indices → EngineInv ctx st2 →
        EngineInv ctx st') := by
  unfold tail_phase at h
  cases hm : pyMaxKeys st2.scored with
  | none => rw [hm] at h; cases h
  | some best =>
    rw [hm] at h
    obtain ⟨st6, hext, hmk, hinv⟩ := fill_phase_shape h
    refine ⟨st6, _, ?_, hmk, ?_⟩
    · apply stExt_trans _ hext
      apply stExt_trans (walk_loop_ext ctx best (ctx.n + 2) 1 best st2)
      exact after_walk_ext ctx _ _ _ _
    · intro hb hi
      apply hinv hb
      apply after_walk_inv ctx _ _ _ _ hb
      exact walk_loop_inv ctx best hb (ctx.n + 2) 1 best st2 hi

theorem foldl_ensure_ext (ctx : EngineCtx) :
    ∀ (l : List Nat) (st : EngineState),
      StExt st (l.foldl (fun st i => (ensure ctx st (Int.ofNat i)).1) st) := by
  intro l
  induction l with
  | nil => intro st; exact stExt_refl st
  | cons i is ih =>
    intro st
    rw [List.foldl_cons]
    exact stExt_trans (ensure_ext ctx st _) (ih _)

theorem foldl_ensure_inv (ctx : EngineCtx)
    (hb : BatchKeysRequested ctx.score_indices) :
    ∀ (l : List Nat) (st : EngineState), EngineInv ctx st →
      EngineInv ctx (l.foldl (fun st i => (ensure ctx st (Int.ofNat i)).1) st) := by
  intro l
  induction l with
  | nil => intro st h; exact h
  | cons i is ih =>
    intro st h
    rw [List.foldl_cons]
    exact ih _ (ensure_inv ctx st _ hb h)

theorem engineInv_empty (ctx : EngineCtx) : EngineInv ctx ⟨[], []⟩ := by
  refine ⟨Nat.zero_le _, ?_, ?_⟩ <;> intro x hx <;> cases hx

/-- Every successful engine run ends in `mkResult` on a state reachable from
the empty state; with a batch scorer that answers only requested indices the
final state satisfies the engine invariant. -/
theorem engine_main_shape {ctx : EngineCtx} {o : RngOracle}
    {r : Dict × SelectionMeta} (h : engine_main ctx o = some r) :
    ∃ st c, mkResult ctx st c = some r ∧
      (BatchKeysRequested ctx.score_indices → EngineInv ctx st) := by
  unfold engine_main at h
  split at h
  · exact ⟨_, _, h, fun hb => foldl_ensure_inv ctx hb _ _ (engineInv_empty ctx)⟩
  · split at h
    · exact ⟨_, _, h, fun hb =>
        ensure_batch_inv ctx _ _ hb (engineInv_empty ctx)⟩
    · obtain ⟨st', c, _, hmk, hinv⟩ := tail_phase_shape h
      refine ⟨st', c, hmk, fun hb => hinv hb ?_⟩
      exact ternary_loop_inv ctx hb _ _ _ _
        (ensure_batch_inv ctx _ _ hb (engineInv_empty ctx))

/-! ## Lemmas: `pyMaxBy` and `py_sorted_nat` -/

theorem firstMaxBy_mem {f : Nat → PickKey} {l : List Nat} {m : Nat}
    (h : FirstMaxBy f l m) : m ∈ l := by
  obtain ⟨l1, l2, hsplit, _, _⟩ := h
  rw [hsplit]
  exact List.mem_append.mpr (Or.inr (List.mem_cons_self _ _))

theorem firstMaxBy_le {f : Nat → PickKey} {l : List Nat} {m : Nat}
    (h : FirstMaxBy f l m) : ∀ y ∈ l, f y ≤ f m := by
  obtain ⟨l1, l2, hsplit, hl1, hl2⟩ := h
  intro y hy
  rw [hsplit] at hy
  rcases List.mem_append.mp hy with h | h
  · exact le_of_lt (hl1 y h)
  · rcases List.mem_cons.mp h with h | h
    · exact le_of_eq (congrArg f h)
    · exact hl2 y h

theorem firstMaxBy_lowest_tie {f : Nat → PickKey} {l : List Nat} {m : Nat}
    (h : FirstMaxBy f l m) (hsorted : List.Pairwise (· < ·) l) :
    ∀ j ∈ l, f j = f m → m ≤ j := by
  obtain ⟨l1, l2, hsplit, hl1, hl2⟩ := h
  intro j hj hfj
  rw [hsplit] at hj hsorted
  rcases List.mem_append.mp hj with hmem | hmem
  · exact absurd (hfj ▸ hl1 j hmem) (lt_irrefl _)
  · rcases List.mem_cons.mp hmem with hmem | hmem
    · exact le_of_eq hmem.symm
    · have := (List.pairwise_append.mp hsorted).2.1
      exact le_of_lt ((List.pairwise_cons.mp this).1 j hmem)

theorem pyMaxBy_first_max (f : Nat → PickKey) :
    ∀ (xs : List Nat) (x : Nat),
      FirstMaxBy f (x :: xs)
        (xs.foldl (fun best y => if f best < f y then y else best) x) := by
  intro xs
  induction xs with
  | nil =>
    intro x
    refine ⟨[], [], rfl, ?_, ?_⟩ <;> intro y h <;> cases h
  | cons y ys ih =>
    intro x
    rw [List.foldl_cons]
    by_cases hxy : f x < f y
    · rw [if_pos hxy]
      obtain ⟨l1, l2, hsplit, hl1, hl2⟩ := ih y
      have hym : f y ≤
          f (ys.foldl (fun best y => if f best < f y then y else best) y) :=
        firstMaxBy_le ⟨l1, l2, hsplit, hl1, hl2⟩ y (List.mem_cons_self _ _)
      refine ⟨x :: l1, l2, by rw [List.cons_append, hsplit], ?_, hl2⟩
      intro z hz
      rcases List.mem_cons.mp hz with h | h
      · subst h; exact lt_of_lt_of_le hxy hym
      · exact hl1 z h
    · rw [if_neg hxy]
      obtain ⟨l1, l2, hsplit, hl1, hl2⟩ := ih x
      rcases l1 with _ | ⟨w, ws⟩
      · rw [List.nil_append] at hsplit
        have hxm := (List.cons.injEq _ _ _ _).mp hsplit
        refine ⟨[], y :: l2, ?_, ?_, ?_⟩
        · rw [List.nil_append, ← hxm.1, ← hxm.2]
        · intro z hz; cases hz
        · intro z hz
          rcases List.mem_cons.mp hz with h | h
          · subst h
            rw [← hxm.1]
            exact le_of_not_lt hxy
          · exact hl2 z h
      · rw [List.cons_append] at hsplit
        have hinj := (List.cons.injEq _ _ _ _).mp hsplit
        refine ⟨x :: y :: ws, l2, ?_, ?_, hl2⟩
        · rw [List.cons_append, List.cons_append]
          exact congrArg (fun t => x :: y :: t) hinj.2
        · intro z hz
          have hwlt := hl1 w (List.mem_cons_self _ _)
          rw [← hinj.1] at hwlt
          rcases List.mem_cons.mp hz with h | h
          · subst h; exact hwlt
          · rcases List.mem_cons.mp h with h' | h'
            · subst h'
              exact lt_of_le_of_lt (le_of_not_lt hxy) hwlt
            · exact hl1 z (List.mem_cons_of_mem _ h')

theorem pyMaxBy_spec {f : Nat → PickKey} {l : List Nat} {m : Nat}
    (h : pyMaxBy f l = some m) : FirstMaxBy f l m := by
  cases l with
  | nil => cases h
  | cons x xs =>
    have hm := Option.some.inj h
    rw [← hm]
    exact pyMaxBy_first_max f xs x

theorem pyMaxBy_mem {f : Nat → PickKey} {l : List Nat} {m : Nat}
    (h : pyMaxBy f l = some m) : m ∈ l :=
  firstMaxBy_mem (pyMaxBy_spec h)

theorem py_sorted_nat_perm (l : List Nat) : List.Perm (py_sorted_nat l) l :=
  List.perm_insertionSort _ l

theorem py_sorted_nat_length (l : List Nat) :
    (py_sorted_nat l).length = l.length :=
  (py_sorted_nat_perm l).length_eq

theorem py_sorted_nat_mem {l : List Nat} {x : Nat} :
    x ∈ py_sorted_nat l ↔ x ∈ l :=
  (py_sorted_nat_perm l).mem_iff

theorem py_sorted_nat_sorted (l : List Nat) :
    List.Pairwise (· ≤ ·) (py_sorted_nat l) :=
  List.sorted_insertionSort _ l

theorem py_sorted_nat_of_sorted {l : List Nat}
    (h : List.Pairwise (· ≤ ·) l) : py_sorted_nat l = l :=
  List.Sorted.insertionSort_eq h

theorem py_sorted_set_mem {l : List Nat} {x : Nat} :
    x ∈ py_sorted_set l ↔ x ∈ l := by
  unfold py_sorted_set
  rw [py_sorted_nat_mem, List.mem_dedup]

theorem py_sorted_set_length_le (l : List Nat) :
    (py_sorted_set l).length ≤ l.length := by
  unfold py_sorted_set
  rw [py_sorted_nat_length]
  exact (List.dedup_sublist l).length_le

theorem py_sorted_set_nodup (l : List Nat) : (py_sorted_set l).Nodup :=
  (py_sorted_nat_perm l.dedup).nodup_iff.mpr (List.nodup_dedup l)

/-! ## Claim C10: scored/probed indices stay in range -/

/-- C10: for every engine run with `total_frames ≥ 1`, provided the batch
scorer (when supplied) returns results only for the indices it was asked to
score, every index in the returned scored map, in `meta.scored_indices`, in
`meta.probes` and `meta.best_idx` itself lies within `[0, total_frames - 1]`
(requests are clamped into range before scoring). -/
theorem c10_indices_in_range (n : Nat) (b : Int) (o : RngOracle)
    (f : Nat → ScoreResult) (sb : Option BatchScorer) (thr : Rat) (la : Nat)
    (hn : 1 ≤ n) (hb : BatchKeysRequested sb) (sc : Dict) (meta : SelectionMeta)
    (h : adaptive_select_and_score n b o f sb thr la = some (sc, meta)) :
    (∀ k ∈ dictKeys sc, k < n) ∧ (∀ i ∈ meta.scored_indices, i < n) ∧
    (∀ p ∈ meta.probes, p < n) ∧ meta.best_idx < n := by
  have h' : engine_main ⟨n, (max 1 b).toNat, f, sb, thr, la⟩ o = some (sc, meta) := h
  obtain ⟨st, c, hmk, hinv⟩ := engine_main_shape h'
  obtain ⟨hl, hk, hp⟩ := hinv hb
  obtain ⟨h1, _, h3, h4, _, h6⟩ := mkResult_eq_some hmk
  have hk' : ∀ k ∈ dictKeys st.scored, k ≤ n - 1 := hk
  have hp' : ∀ p ∈ st.probes, p ≤ n - 1 := hp
  have hsc : sc = st.scored := h1
  refine ⟨?_, ?_, ?_, ?_⟩
  · intro k hkm
    have := hk' k (hsc ▸ hkm)
    omega
  · intro i him
    rw [show meta = (sc, meta).2 from rfl, h3] at him
    have := hk' i (py_sorted_nat_mem.mp him)
    omega
  · intro p hpm
    rw [show meta = (sc, meta).2 from rfl, h4] at hpm
    have := hp' p hpm
    omega
  · have hbm := pyMaxBy_mem
      (show pyMaxKeys st.scored = some (sc, meta).2.best_idx from h6)
    have hble : meta.best_idx ≤ n - 1 := hk' _ hbm
    omega

/-- Witness for C10: a concrete run with 2 frames and budget 1. -/
theorem c10_witness :
    (∀ k ∈ dictKeys [(0, constScore)], k < 2) ∧
    (∀ i ∈ ([0] : List Nat), i < 2) ∧ (∀ p ∈ ([0] : List Nat), p < 2) ∧
    (0 : Nat) < 2 :=
  c10_indices_in_range 2 1 zeroOracle cS none 1 2 (by decide)
    (fun fb h => Option.noConfusion h) [(0, constScore)] ⟨1, [0], [0], 1, 0⟩
    (by decide)

/-! ## Claim C2: the budget bound -/

/-- C2 (amended): provided the batch scorer (when supplied) returns results
only for the indices it was asked to score, the scored cache never exceeds
the (normalised) budget: every `ensure_batch` step preserves the bound — and
`ensure` only mutates state through `ensure_batch` — and the returned scored
map and `meta.scored_indices` hold at most `budget` entries.  Without that
proviso the bound fails (see the counterexample). -/
theorem c2_budget_bound (n : Nat) (b : Int) (o : RngOracle)
    (f : Nat → ScoreResult) (sb : Option BatchScorer) (thr : Rat) (la : Nat)
    (hb : BatchKeysRequested sb) :
    (∀ (st : EngineState) (idxs : List Int),
      EngineInv ⟨n, (max 1 b).toNat, f, sb, thr, la⟩ st →
      (ensure_batch ⟨n, (max 1 b).toNat, f, sb, thr, la⟩ st idxs).scored.length ≤
        (max 1 b).toNat) ∧
    (∀ (sc : Dict) (meta : SelectionMeta),
      adaptive_select_and_score n b o f sb thr la = some (sc, meta) →
      sc.length ≤ (max 1 b).toNat ∧
      meta.scored_indices.length ≤ (max 1 b).toNat) := by
  constructor
  · intro st idxs hinv
    exact (ensure_batch_inv ⟨n, (max 1 b).toNat, f, sb, thr, la⟩ st idxs hb hinv).1
  · intro sc meta h
    have h' : engine_main ⟨n, (max 1 b).toNat, f, sb, thr, la⟩ o = some (sc, meta) := h
    obtain ⟨st, c, hmk, hinv⟩ := engine_main_shape h'
    obtain ⟨hl, _, _⟩ := hinv hb
    obtain ⟨h1, _, h3, _, _, _⟩ := mkResult_eq_some hmk
    constructor
    · rw [show sc = (sc, meta).1 from rfl, h1]
      exact hl
    · rw [show meta = (sc, meta).2 from rfl, h3, py_sorted_nat_length]
      unfold dictKeys
      rw [List.length_map]
      exact hl

/-- Counterexample for C2 as frozen ("any scoring functions"): with
`total_frames = 1`, `budget = 1` and a batch scorer that also returns a
result for index 5 (which it was not asked to score), the engine merges both
entries: the returned scored map and `meta.scored_indices` have 2 entries,
exceeding the budget of 1. -/
theorem c2_counterexample :
    adaptive_select_and_score 1 1 zeroOracle cS (some extraKeyBatch) 1 2 =
      some ([(0, constScore), (5, constScore)], ⟨1, [0, 5], [0], 0, 0⟩) ∧
    ¬ (([(0, constScore), (5, constScore)] : Dict).length ≤ 1) := by
  exact ⟨by decide, by decide⟩

/-- Witness for C2: a sequential run within budget. -/
theorem c2_witness :
    ([(0, constScore)] : Dict).length ≤ (max 1 (1 : Int)).toNat ∧
    ([0] : List Nat).length ≤ (max 1 (1 : Int)).toNat :=
  (c2_budget_bound 2 1 zeroOracle cS none 1 2
    (fun fb h => Option.noConfusion h)).2 [(0, constScore)] ⟨1, [0], [0], 1, 0⟩
    (by decide)

/-! ## Lemmas: nonemptiness of the scored cache (the engine does not raise
once at least one frame exists) -/

theorem dictGet_ne_nil {d : Dict} {k : Nat}
    (h : (dictGet d k).isSome = true) : d ≠ [] := by
  intro hc
  subst hc
  simp [dictGet] at h

theorem dictSet_ne_nil (d : Dict) (k : Nat) (v : ScoreResult) :
    dictSet d k v ≠ [] := by
  unfold dictSet
  split
  · rename_i h
    cases d with
    | nil => simp at h
    | cons p ps => simp
  · simp

theorem foldl_dictSet_ne_nil (g : Nat → ScoreResult) :
    ∀ (l : List Nat) (d : Dict), l ≠ [] ∨ d ≠ [] →
      l.foldl (fun d ii => dictSet d ii (g ii)) d ≠ [] := by
  intro l
  induction l with
  | nil =>
    intro d h
    rcases h with h | h
    · exact absurd rfl h
    · exact h
  | cons a as ih =>
    intro d _
    rw [List.foldl_cons]
    exact ih _ (Or.inr (dictSet_ne_nil d a (g a)))

theorem mergeGot_ne_nil :
    ∀ (got : List (Nat × Option ScoreResult)) (d : Dict),
      d ≠ [] ∨ (∃ kv ∈ got, kv.2.isSome = true) → mergeGot d got ≠ [] := by
  intro got
  induction got with
  | nil =>
    intro d h
    rcases h with h | ⟨kv, hkv, _⟩
    · exact h
    · cases hkv
  | cons kv rest ih =>
    intro d h
    obtain ⟨k, v⟩ := kv
    cases v with
    | none =>
      rw [mergeGot_cons_none]
      apply ih
      rcases h with h | ⟨kv2, hkv2, hs⟩
      · exact Or.inl h
      · rcases List.mem_cons.mp hkv2 with heq | hmem
        · rw [heq] at hs; simp at hs
        · exact Or.inr ⟨kv2, hmem, hs⟩
    | some r =>
      by_cases hp : (dictGet d k).isSome = true
      · rw [mergeGot_cons_some_present hp]
        exact ih d (Or.inl (dictGet_ne_nil hp))
      · rw [mergeGot_cons_some_fresh hp]
        exact ih _ (Or.inl (by simp))

theorem buildUniqAux_acc_grows (n : Nat) (d : Dict) :
    ∀ (idxs : List Int) (acc : List Nat),
      ∃ e, buildUniqAux n d idxs acc = acc ++ e := by
  intro idxs
  induction idxs with
  | nil => intro acc; exact ⟨[], by simp [buildUniqAux]⟩
  | cons i is ih =>
    intro acc
    unfold buildUniqAux
    split
    · exact ih acc
    · obtain ⟨e, he⟩ := ih (acc ++ [clampIdx n i])
      exact ⟨[clampIdx n i] ++ e, by rw [he, List.append_assoc]⟩

theorem buildUniq_from_empty_ne_nil (n : Nat) {idxs : List Int}
    (h : idxs ≠ []) : buildUniq n [] idxs ≠ [] := by
  cases idxs with
  | nil => exact absurd rfl h
  | cons i is =>
    have hcond : ¬ ((dictGet [] (clampIdx n i)).isSome = true ∨
        clampIdx n i ∈ ([] : List Nat)) := by
      intro hc
      rcases hc with hc | hc
      · simp [dictGet] at hc
      · cases hc
    unfold buildUniq buildUniqAux
    rw [if_neg hcond]
    obtain ⟨e, he⟩ := buildUniqAux_acc_grows n [] is ([] ++ [clampIdx n i])
    rw [he]
    simp

theorem stExt_scored_ne_nil {st st' : EngineState} (h : StExt st st')
    (hne : st.scored ≠ []) : st'.scored ≠ [] := by
  obtain ⟨⟨d, hd⟩, _⟩ := h
  rw [hd]
  intro hc
  exact hne (List.append_eq_nil.mp hc).1

theorem pyMaxBy_isSome (f : Nat → PickKey) {l : List Nat} (h : l ≠ []) :
    (pyMaxBy f l).isSome = true := by
  cases l with
  | nil => exact absurd rfl h
  | cons x xs => rfl

theorem pyMaxKeys_isSome {d : Dict} (h : d ≠ []) :
    (pyMaxKeys d).isSome = true := by
  apply pyMaxBy_isSome
  intro hc
  apply h
  unfold dictKeys at hc
  exact List.map_eq_nil_iff.mp hc

theorem mkResult_isSome {ctx : EngineCtx} {st : EngineState} {c : Int}
    (h : st.scored ≠ []) : (mkResult ctx st c).isSome = true := by
  unfold mkResult
  cases hm : pyMaxKeys st.scored with
  | none =>
    have := pyMaxKeys_isSome h
    rw [hm] at this
    cases this
  | some best => rfl

theorem ensure_batch_from_empty_ne_nil (ctx : EngineCtx) (st : EngineState)
    (idxs : List Int) (hsc : st.scored = []) (hidx : idxs ≠ [])
    (hbud : 1 ≤ ctx.budget) (hno : NonOmitting ctx.score_indices) :
    (ensure_batch ctx st idxs).scored ≠ [] := by
  have h1 : ¬ (idxs.isEmpty = true ∨ ctx.budget ≤ st.scored.length) := by
    intro hc
    rcases hc with hc | hc
    · exact hidx (List.isEmpty_iff.mp hc)
    · rw [hsc] at hc
      simp at hc
      omega
  have h2 : ¬ ((buildUniq ctx.n st.scored idxs).isEmpty = true) := by
    rw [hsc]
    intro hc
    exact buildUniq_from_empty_ne_nil ctx.n hidx (List.isEmpty_iff.mp hc)
  have hu : (buildUniq ctx.n st.scored idxs).take
      (ctx.budget - st.scored.length) ≠ [] := by
    apply take_ne_nil_of_pos h2
    rw [hsc]
    simp
    omega
  unfold ensure_batch
  rw [if_neg h1, if_neg h2]
  unfold ensure_batch_run
  cases hsb : ctx.score_indices with
  | some fb =>
    show mergeGot st.scored _ ≠ []
    apply mergeGot_ne_nil
    right
    rcases hno with hnone | ⟨fb2, hfb2, hdel⟩
    · rw [hnone] at hsb; cases hsb
    · rw [hfb2] at hsb
      have hfe : fb2 = fb := Option.some.inj hsb
      rw [← hfe]
      exact hdel _ hu
  | none =>
    show List.foldl _ st.scored _ ≠ []
    apply foldl_dictSet_ne_nil
    exact Or.inl hu

theorem ensure_from_empty_ne_nil (ctx : EngineCtx) (st : EngineState) (i : Int)
    (hsc : st.scored = []) (hbud : 1 ≤ ctx.budget)
    (hno : NonOmitting ctx.score_indices) :
    (ensure ctx st i).1.scored ≠ [] := by
  have hg : dictGet st.scored (clampIdx ctx.n i) = none := by
    rw [hsc]; rfl
  have hb2 : ¬ ctx.budget ≤ st.scored.length := by
    rw [hsc]
    simp
    omega
  unfold ensure
  rw [hg]
  rw [if_neg hb2]
  exact ensure_batch_from_empty_ne_nil ctx st _ hsc (by simp) hbud hno

theorem foldl_ensure_scored_ne_nil (ctx : EngineCtx) (l : List Nat)
    {st : EngineState} (h : st.scored ≠ []) :
    (l.foldl (fun st i => (ensure ctx st (Int.ofNat i)).1) st).scored ≠ [] :=
  stExt_scored_ne_nil (foldl_ensure_ext ctx l st) h

theorem fill_phase_isSome {ctx : EngineCtx} {o : RngOracle} {t best : Nat}
    {st4 : EngineState} {cutoff : Int} (h : st4.scored ≠ []) :
    (fill_phase ctx o t best st4 cutoff).isSome = true := by
  unfold fill_phase fill_phase2
  set st5 := (if st4.scored.length < ctx.budget then
    nbr_loop ctx best cutoff (max 3 ctx.budget) 1 st4 else st4) with hst5
  have h5 : st5.scored ≠ [] := by
    rw [hst5]
    split
    · exact stExt_scored_ne_nil (nbr_loop_ext ctx best cutoff _ _ st4) h
    · exact h
  apply mkResult_isSome
  split
  · exact stExt_scored_ne_nil (fill_loop_ext ctx _ _) h5
  · exact h5

theorem tail_phase_isSome {ctx : EngineCtx} {o : RngOracle} {t : Nat}
    {st2 : EngineState} (h : st2.scored ≠ []) :
    (tail_phase ctx o t st2).isSome = true := by
  unfold tail_phase
  cases hm : pyMaxKeys st2.scored with
  | none =>
    have := pyMaxKeys_isSome h
    rw [hm] at this
    cases this
  | some best =>
    apply fill_phase_isSome
    apply stExt_scored_ne_nil (after_walk_ext ctx _ _ _ _)
    exact stExt_scored_ne_nil (walk_loop_ext ctx best (ctx.n + 2) 1 best st2) h

theorem seed_batch_ne_nil (n budget : Nat) (o : RngOracle) :
    (seed_batch n budget o).1 ≠ [] := by
  intro hc
  have h0 : (0 : Nat) ∈ (seed_batch n budget o).1 := by
    simp only [seed_batch]
    split
    · exact py_sorted_set_mem.mpr (by simp)
    · exact py_sorted_set_mem.mpr (by simp)
  rw [hc] at h0
  cases h0

theorem one_le_budget_norm (b : Int) : 1 ≤ (max 1 b).toNat := by
  have h1 : (1 : Int) ≤ max 1 b := le_max_left 1 b
  omega

/-- Once at least one frame exists and the batch scorer (when supplied)
delivers at least one result per non-empty request, the engine always
returns a result: the scored cache is non-empty at every final argmax, so
the `ValueError` branch of `mkResult` is never taken. -/
theorem engine_main_isSome (ctx : EngineCtx) (o : RngOracle)
    (hn : 1 ≤ ctx.n) (hbud : 1 ≤ ctx.budget)
    (hno : NonOmitting ctx.score_indices) :
    (engine_main ctx o).isSome = true := by
  unfold engine_main
  split
  · apply mkResult_isSome
    obtain ⟨m, hm⟩ : ∃ m, ctx.n = m + 1 := ⟨ctx.n - 1, by omega⟩
    rw [hm, List.range_succ_eq_map, List.foldl_cons]
    apply foldl_ensure_scored_ne_nil
    exact ensure_from_empty_ne_nil ctx ⟨[], []⟩ (Int.ofNat 0) rfl hbud hno
  · have hmap : ((seed_batch ctx.n ctx.budget o).1.map Int.ofNat) ≠ [] := by
      intro hc
      exact seed_batch_ne_nil ctx.n ctx.budget o (List.map_eq_nil_iff.mp hc)
    have hst1 : (ensure_batch ctx ⟨[], []⟩
        ((seed_batch ctx.n ctx.budget o).1.map Int.ofNat)).scored ≠ [] :=
      ensure_batch_from_empty_ne_nil ctx ⟨[], []⟩ _ rfl hmap hbud hno
    split
    · exact mkResult_isSome hst1
    · apply tail_phase_isSome
      exact stExt_scored_ne_nil (ternary_loop_ext ctx _ _ _ _) hst1

/-! ## Claim C4: per-index scoring failure semantics -/

/-- C4 (amended): a failing per-index scoring call never propagates an
exception out of the engine — but not by exclusion: `score_one`
(`manager.py`) catches every provider error at the call site and converts it
into an all-zero `ScoreResult` (scores 0, empty pose and summary), which the
engine caches and budgets like any successful result; and the engine itself
returns a result (no `ValueError`) whenever at least one frame exists and
the batch scorer (when supplied) delivers at least one result per non-empty
request. -/
theorem c4_failure_semantics (provider : Nat → Except Unit RawData) (i : Nat)
    (n : Nat) (b : Int) (o : RngOracle) (sb : Option BatchScorer)
    (thr : Rat) (la : Nat) :
    (provider i = Except.error () → score_one provider i = ⟨0, 0, 0, "", ""⟩) ∧
    (1 ≤ n → NonOmitting sb →
      (adaptive_select_and_score n b o (score_one provider) sb thr la).isSome
        = true) := by
  constructor
  · intro h
    unfold score_one
    rw [h]
    rfl
  · intro hn hno
    show (engine_main ⟨n, (max 1 b).toNat, score_one provider, sb, thr, la⟩
      o).isSome = true
    exact engine_main_isSome _ o hn (one_le_budget_norm b) hno

/-- Witness for C4: the always-failing provider on a one-frame run. -/
theorem c4_witness :
    score_one failProv 0 = ⟨0, 0, 0, "", ""⟩ ∧
    (adaptive_select_and_score 1 1 zeroOracle (score_one failProv)
      none 1 2).isSome = true :=
  ⟨(c4_failure_semantics failProv 0 1 1 zeroOracle none 1 2).1 rfl,
   (c4_failure_semantics failProv 0 1 1 zeroOracle none 1 2).2 (by decide)
     (Or.inl rfl)⟩

/-- Counterexample for C4 as frozen: with one frame and a provider whose
scoring call always fails, the failed index 0 is NOT excluded from the
returned scored map — `score_one` stores an all-zero result under it — and
it consumes budget credit: the single budget unit is spent on the failed
index. -/
theorem c4_counterexample :
    adaptive_select_and_score 1 1 zeroOracle (score_one failProv) none 1 2 =
      some ([(0, ⟨0, 0, 0, "", ""⟩)], ⟨1, [0], [0], 0, 0⟩) ∧
    (0 : Nat) ∈ dictKeys [(0, (⟨0, 0, 0, "", ""⟩ : ScoreResult))] ∧
    ([(0, (⟨0, 0, 0, "", ""⟩ : ScoreResult))] : Dict).length = 1 := by
  exact ⟨by decide, by decide, by decide⟩

/-! ## Claim C3: the tie-break order of best_idx and the diagnostic ranking -/

instance : IsTotal (Nat × ScoreResult)
    (fun a b : Nat × ScoreResult => rank_key b.2 ≤ rank_key a.2) :=
  ⟨fun a b => le_total (rank_key b.2) (rank_key a.2)⟩

instance : IsTrans (Nat × ScoreResult)
    (fun a b : Nat × ScoreResult => rank_key b.2 ≤ rank_key a.2) :=
  ⟨fun _ _ _ h1 h2 => le_trans h2 h1⟩

theorem pairwise_keys_sublist :
    ∀ {d : Dict}, List.Pairwise (· < ·) (dictKeys d) →
      ∀ {p q : Nat × ScoreResult}, p ∈ d → q ∈ d → p.1 < q.1 →
        List.Sublist [p, q] d := by
  intro d
  induction d with
  | nil =>
    intro _ p q hp
    cases hp
  | cons x t ih =>
    intro hpw p q hp hq hlt
    have hpw' := List.pairwise_cons.mp (by
      show List.Pairwise (· < ·) (x.1 :: dictKeys t)
      exact hpw)
    rcases List.mem_cons.mp hp with hpx | hpt
    · rcases List.mem_cons.mp hq with hqx | hqt
      · rw [hpx, hqx] at hlt
        exact absurd hlt (lt_irrefl _)
      · rw [hpx]
        exact List.Sublist.cons₂ x (List.singleton_sublist.mpr hqt)
    · rcases List.mem_cons.mp hq with hqx | hqt
      · have hxp : x.1 < p.1 := hpw'.1 p.1 (List.mem_map_of_mem Prod.fst hpt)
        rw [hqx] at hlt
        exact absurd (lt_trans hxp hlt) (lt_irrefl _)
      · exact List.Sublist.cons x (ih hpw'.2 hpt hqt hlt)

/-- C3 (amended): `best_idx` is Python's `max` over the scored keys in
insertion order — the FIRST key attaining the maximal `pick_key` — and the
diagnostic ranking is a stable descending sort of the scored items by
`rank_key`, where `rank_key` (bundle.py) computes the same key as `_pick_key`
(selection.py).  Ties therefore resolve to the lowest frame index only under
the premise that the scored map's insertion order is increasing in frame
index: then equal keys give `best_idx` the lowest tied index and any
equal-key pair is ranked lower-index-first.  The engine does not guarantee
that premise: a batch scorer merging parallel results in completion order
violates it (see the counterexample), and even the sequential adaptive path
can score a lower index after a higher one (ternary midpoints are probed
after the seeds, e.g. index 3 after seed 5).  The exhaustive path
(`totalFrames ≤ budget`) does satisfy it — there the scored map is built in
index order (see the C5 theorem). -/
theorem c3_tie_break (d : Dict) (m : Nat) :
    (∀ res, rank_key res = pick_key res) ∧
    (pyMaxKeys d = some m → FirstMaxBy (keyOfIdx d) (dictKeys d) m) ∧
    List.Perm (ranked_pairs d) d ∧
    List.Pairwise (fun a b : Nat × ScoreResult => rank_key b.2 ≤ rank_key a.2)
      (ranked_pairs d) ∧
    (List.Pairwise (· < ·) (dictKeys d) →
      (pyMaxKeys d = some m → ∀ j ∈ dictKeys d,
        keyOfIdx d j = keyOfIdx d m → m ≤ j) ∧
      (∀ p q : Nat × ScoreResult, p ∈ d → q ∈ d →
        rank_key p.2 = rank_key q.2 → p.1 < q.1 →
        List.Sublist [p, q] (ranked_pairs d))) := by
  refine ⟨fun res => rfl, fun h => pyMaxBy_spec h, List.perm_insertionSort _ d,
    List.sorted_insertionSort _ d, fun hinc => ⟨?_, ?_⟩⟩
  · intro hmax j hj hkey
    exact firstMaxBy_lowest_tie (pyMaxBy_spec hmax) hinc j hj hkey
  · intro p q hp hq hkey hlt
    exact List.pair_sublist_insertionSort (le_of_eq (by rw [hkey]))
      (pairwise_keys_sublist hinc hp hq hlt)

/-- Counterexample for C3 as frozen: with 3 frames, budget 2 and a batch
scorer returning equal scores for the requested indices in reversed request
order, the engine's scored map holds index 1 before index 0; the keys of
indices 0 and 1 are equal, yet `best_idx = 1` — the tie goes to the
first-inserted index, not the lowest one. -/
theorem c3_counterexample :
    adaptive_select_and_score 3 2 zeroOracle cS (some revBatch) 1 2 =
      some ([(1, constScore), (0, constScore)], ⟨2, [0, 1], [0, 1], 2, 1⟩) ∧
    keyOfIdx [(1, constScore), (0, constScore)] 0 =
      keyOfIdx [(1, constScore), (0, constScore)] 1 ∧
    (⟨2, [0, 1], [0, 1], 2, 1⟩ : SelectionMeta).best_idx ≠ 0 := by
  exact ⟨by decide, by decide, by decide⟩

/-- A scored dict whose insertion order is increasing in frame index, with a
tied maximal key at indices 0 and 2. -/
def dInc : Dict := [(0, faceScore), (2, faceScore), (5, constScore)]

/-- Witness for C3: on `dInc` the argmax is the lowest tied index 0 and the
tied pair is ranked lower-index-first. -/
theorem c3_witness :
    rank_key constScore = pick_key constScore ∧
    FirstMaxBy (keyOfIdx dInc) (dictKeys dInc) 0 ∧
    (∀ j ∈ dictKeys dInc, keyOfIdx dInc j = keyOfIdx dInc 0 → 0 ≤ j) ∧
    List.Sublist [(0, faceScore), (2, faceScore)] (ranked_pairs dInc) := by
  obtain ⟨h1, h2, _, _, h5⟩ := c3_tie_break dInc 0
  exact ⟨h1 constScore, h2 (by decide), (h5 (by decide)).1 (by decide),
    (h5 (by decide)).2 (0, faceScore) (2, faceScore) (by decide) (by decide)
      (by decide) (by decide)⟩

/-! ## Claim C5: the exhaustive path (totalFrames within budget) -/

theorem dictKeys_map_range (f : Nat → ScoreResult) (m : Nat) :
    dictKeys ((List.range m).map (fun i => (i, f i))) = List.range m := by
  unfold dictKeys
  rw [List.map_map]
  have hcomp : (Prod.fst ∘ fun i => (i, f i)) = fun i : Nat => i := rfl
  rw [hcomp]
  exact List.map_id _

theorem dictGet_map_range_ge (f : Nat → ScoreResult) {m k : Nat} (h : m ≤ k) :
    dictGet ((List.range m).map (fun i => (i, f i))) k = none := by
  rw [dictGet_eq_none_iff, dictKeys_map_range]
  intro hc
  have := List.mem_range.mp hc
  omega

/-- One fresh `ensure` step within budget appends exactly one scored entry
and one probe for the requested (in-range) index, with the batch scorer —
when supplied — agreeing with the sequential scorer. -/
theorem ensure_step_fresh (ctx : EngineCtx) (st : EngineState) (j : Nat)
    (hj : j < ctx.n) (hget : dictGet st.scored j = none)
    (hlen : st.scored.length < ctx.budget)
    (hsb : BatchAgrees ctx.score_indices ctx.score_index) :
    (ensure ctx st (Int.ofNat j)).1 =
      ⟨st.scored ++ [(j, ctx.score_index j)], st.probes ++ [j]⟩ := by
  have hclamp : clampIdx ctx.n (Int.ofNat j) = j := clampIdx_of_lt hj
  have hc2 : clampIdx ctx.n ((j : Nat) : Int) = j := clampIdx_of_lt hj
  have hbuild : buildUniq ctx.n st.scored [((j : Nat) : Int)] = [j] := by
    unfold buildUniq buildUniqAux
    rw [hc2, hget]
    rw [if_neg (by simp)]
    rfl
  have h1 : ¬ (([((j : Nat) : Int)] : List Int).isEmpty = true ∨
      ctx.budget ≤ st.scored.length) := by
    intro hc
    rcases hc with hc | hc
    · simp at hc
    · omega
  have h2 : ¬ ((buildUniq ctx.n st.scored [((j : Nat) : Int)]).isEmpty = true) := by
    rw [hbuild]
    simp
  have htake : ([j] : List Nat).take (ctx.budget - st.scored.length) = [j] := by
    obtain ⟨r, hr⟩ : ∃ r, ctx.budget - st.scored.length = r + 1 :=
      ⟨ctx.budget - st.scored.length - 1, by omega⟩
    rw [hr, List.take_succ_cons, List.take_nil]
  have hbatch : ensure_batch ctx st [((j : Nat) : Int)] =
      ⟨st.scored ++ [(j, ctx.score_index j)], st.probes ++ [j]⟩ := by
    unfold ensure_batch
    rw [if_neg h1, if_neg h2, hbuild, htake]
    unfold ensure_batch_run
    cases hsbv : ctx.score_indices with
    | some fb =>
      dsimp only
      rw [hsb fb hsbv [j]]
      rw [show List.map (fun i => (i, some (ctx.score_index i))) [j] =
        [(j, some (ctx.score_index j))] from rfl]
      rw [mergeGot_cons_some_fresh (by rw [hget]; simp)]
      rfl
    | none =>
      dsimp only
      rw [List.foldl_cons, List.foldl_nil, dictSet_fresh hget]
  unfold ensure
  rw [hclamp, hget]
  rw [if_neg (show ¬ ctx.budget ≤ st.scored.length by omega)]
  show ensure_batch ctx st [((j : Nat) : Int)] = _
  exact hbatch

/-- On the exhaustive path the scored cache and the probe log after the
first `m` iterations are exactly the first `m` indices, in order, each
scored once. -/
theorem foldl_range_ensure_trace (ctx : EngineCtx)
    (hsb : BatchAgrees ctx.score_indices ctx.score_index)
    (hnb : ctx.n ≤ ctx.budget) :
    ∀ m, m ≤ ctx.n →
      (List.range m).foldl (fun st i => (ensure ctx st (Int.ofNat i)).1)
          ⟨[], []⟩ =
        ⟨(List.range m).map (fun i => (i, ctx.score_index i)), List.range m⟩ := by
  intro m
  induction m with
  | zero => intro _; rfl
  | succ m ih =>
    intro hm
    rw [List.range_succ, List.foldl_append, ih (by omega)]
    simp only [List.foldl_cons, List.foldl_nil]
    rw [ensure_step_fresh ctx
      ⟨(List.range m).map (fun i => (i, ctx.score_index i)), List.range m⟩ m
      (by omega) (dictGet_map_range_ge _ (le_refl m))
      (by show ((List.range m).map _).length < ctx.budget
          rw [List.length_map, List.length_range]
          omega) hsb]
    dsimp only
    rw [List.map_append]
    rfl

/-- C5 (amended): for `1 ≤ totalFrames ≤ budget`, with the batch scorer
(when supplied) scoring exactly the requested indices with the same scoring
function, the engine scores every frame index `0 .. totalFrames - 1` exactly
once, in order — the scored map is `[(0, f 0), …, (n-1, f (n-1))]` and the
probe log is `[0, …, n-1]` — and `best_idx` is the tie-break-order argmax
over all of them, equal keys resolving to the lowest index.  The frozen
claim's `totalFrames = 0` case is false: the engine raises instead (see the
counterexample and C1). -/
theorem c5_exhaustive_scoring (n : Nat) (b : Int) (o : RngOracle)
    (f : Nat → ScoreResult) (sb : Option BatchScorer) (thr : Rat) (la : Nat)
    (hn : 1 ≤ n) (hnb : (n : Int) ≤ b) (hsb : BatchAgrees sb f) (best : Nat)
    (hbest : pyMaxKeys ((List.range n).map (fun i => (i, f i))) = some best) :
    adaptive_select_and_score n b o f sb thr la =
      some ((List.range n).map (fun i => (i, f i)),
        ⟨(max 1 b).toNat, List.range n, List.range n, (n : Int) - 1, best⟩) ∧
    FirstMaxBy (keyOfIdx ((List.range n).map (fun i => (i, f i))))
      (List.range n) best ∧
    (∀ j ∈ List.range n,
      keyOfIdx ((List.range n).map (fun i => (i, f i))) j =
        keyOfIdx ((List.range n).map (fun i => (i, f i))) best → best ≤ j) := by
  have hBudget : n ≤ (max 1 b).toNat := by
    have h1 : (n : Int) ≤ max 1 b := le_trans hnb (le_max_right 1 b)
    omega
  have htrace : (List.range n).foldl
      (fun st i => (ensure ⟨n, (max 1 b).toNat, f, sb, thr, la⟩ st
        (Int.ofNat i)).1) (⟨[], []⟩ : EngineState) =
      ⟨(List.range n).map (fun i => (i, f i)), List.range n⟩ :=
    foldl_range_ensure_trace ⟨n, (max 1 b).toNat, f, sb, thr, la⟩ hsb hBudget n
      (le_refl n)
  have hkeys : dictKeys ((List.range n).map (fun i => (i, f i))) =
      List.range n := dictKeys_map_range f n
  have hsorted : py_sorted_nat (List.range n) = List.range n :=
    py_sorted_nat_of_sorted ((List.pairwise_lt_range n).imp le_of_lt)
  have hFMB : FirstMaxBy (keyOfIdx ((List.range n).map (fun i => (i, f i))))
      (List.range n) best := by
    have h := pyMaxBy_spec
      (show pyMaxBy (keyOfIdx ((List.range n).map (fun i => (i, f i))))
        (dictKeys ((List.range n).map (fun i => (i, f i)))) = some best
        from hbest)
    rw [hkeys] at h
    exact h
  refine ⟨?_, hFMB, ?_⟩
  · show engine_main ⟨n, (max 1 b).toNat, f, sb, thr, la⟩ o = _
    unfold engine_main
    dsimp only
    rw [if_pos hBudget, htrace]
    unfold mkResult
    dsimp only
    rw [hbest, hkeys, hsorted]
  · intro j hj hkey
    exact firstMaxBy_lowest_tie hFMB (List.pairwise_lt_range n) j hj hkey

/-- Counterexample for C5 as frozen: `totalFrames = 0 ≤ budget = 2` is
included in the claim, but the engine returns no result at all — `scored`
stays empty and the final `max(scored.keys(), ...)` raises (modelled as
`none`) instead of scoring "every frame" and returning an argmax. -/
theorem c5_counterexample :
    adaptive_select_and_score 0 2 zeroOracle cS none 1 2 = none := by
  exact rfl

/-- Witness for C5: a sequential 2-frame run inside a budget of 3. -/
theorem c5_witness :
    adaptive_select_and_score 2 3 zeroOracle cS none 1 2 =
      some ((List.range 2).map (fun i => (i, cS i)),
        ⟨(max 1 (3 : Int)).toNat, List.range 2, List.range 2, (2 : Int) - 1, 0⟩) ∧
    FirstMaxBy (keyOfIdx ((List.range 2).map (fun i => (i, cS i))))
      (List.range 2) 0 ∧
    (∀ j ∈ List.range 2,
      keyOfIdx ((List.range 2).map (fun i => (i, cS i))) j =
        keyOfIdx ((List.range 2).map (fun i => (i, cS i))) 0 → 0 ≤ j) :=
  c5_exhaustive_scoring 2 3 zeroOracle cS none 1 2 (by decide) (by decide)
    (fun fb h => Option.noConfusion h) 0 (by decide)

/-! ## Claim C6: the seeding anchors -/

theorem wri_loop_mem_le (o : RngOracle) (max_idx target : Nat) :
    ∀ (fuel t : Nat) (out : List Nat), (∀ x ∈ out, x ≤ max_idx) →
      ∀ x ∈ (wri_loop o max_idx target fuel t out).1, x ≤ max_idx := by
  intro fuel
  induction fuel with
  | zero => intro t out h; exact h
  | succ fuel ih =>
    intro t out h
    unfold wri_loop
    split
    · dsimp only
      apply ih
      intro x hx
      split at hx
      · exact h x hx
      · rcases List.mem_append.mp hx with hm | hm
        · exact h x hm
        · rw [List.mem_singleton] at hm
          subst hm
          have h1 : max 0 (min (max_idx : Int)
              (pyInt (o.random t * o.random t * o.random t * (max_idx : Rat)))) ≤
              (max_idx : Int) := by
            apply max_le
            · exact Int.ofNat_nonneg max_idx
            · exact min_le_left _ _
          omega
    · exact h

theorem weighted_random_indices_mem_le (o : RngOracle) (t fuel n k : Nat)
    (mi : Option Int) (hn : 1 ≤ n) :
    ∀ x ∈ (weighted_random_indices o t fuel n k mi).1, x ≤ n - 1 := by
  intro x hx
  unfold weighted_random_indices at hx
  split at hx
  · cases hx
  · simp only at hx
    have hx' := py_sorted_nat_mem.mp hx
    cases mi with
    | none =>
      exact wri_loop_mem_le o (n - 1) _ fuel t [] (by intro y hy; cases hy) x hx'
    | some m =>
      have hle := wri_loop_mem_le o ((max 0 (min ((n : Int) - 1) m)).toNat) _
        fuel t [] (by intro y hy; cases hy) x hx'
      have h1 : max 0 (min ((n : Int) - 1) m) ≤ (n : Int) - 1 := by
        apply max_le
        · omega
        · exact min_le_left _ _
      omega

theorem wri_loop_len (o : RngOracle) (mx target : Nat) :
    ∀ (fuel t : Nat) (out : List Nat),
      (wri_loop o mx target fuel t out).1.length ≤ out.length + fuel := by
  intro fuel
  induction fuel with
  | zero => intro t out; exact Nat.le_add_right _ _
  | succ fuel ih =>
    intro t out
    unfold wri_loop
    split
    · dsimp only
      refine le_trans (ih _ _) ?_
      split
      · omega
      · rw [List.length_append]
        simp
        omega
    · exact Nat.le_add_right _ _

theorem weighted_fuel_one_len (o : RngOracle) (t n k : Nat) (mi : Option Int) :
    (weighted_random_indices o t 1 n k mi).1.length ≤ 1 := by
  unfold weighted_random_indices
  split
  · simp
  · dsimp only
    rw [py_sorted_nat_length]
    refine le_trans (wri_loop_len o _ _ 1 t []) ?_
    simp

theorem seed_batch_mem (n B : Nat) (o : RngOracle) :
    0 ∈ (seed_batch n B o).1 ∧ n / 2 ∈ (seed_batch n B o).1 ∧
      n - 1 ∈ (seed_batch n B o).1 := by
  refine ⟨?_, ?_, ?_⟩ <;>
    · simp only [seed_batch]
      split
      · exact py_sorted_set_mem.mpr (by simp)
      · exact py_sorted_set_mem.mpr (by simp)

theorem seed_batch_lt (n B : Nat) (o : RngOracle) (hn : 1 ≤ n) :
    ∀ x ∈ (seed_batch n B o).1, x < n := by
  intro x hx
  simp only [seed_batch] at hx
  split at hx
  · have hx' := py_sorted_set_mem.mp hx
    rcases List.mem_append.mp hx' with hm | hm
    · rcases List.mem_append.mp hm with hb | hw
      · simp at hb
        rcases hb with h | h | h <;> omega
      · have := weighted_random_indices_mem_le o 0 1 n _ _ hn x hw
        omega
    · rw [List.mem_singleton] at hm
      subst hm
      have := clampIdx_le n ((n / 2 : Int) +
        o.randint (weighted_random_indices o 0 1 n (min 1 (B - 3))
          (some (3 * ((n : Int) - 1) / 4))).2 (-(↑(max 1 (n / 6)) : Int))
          (↑(max 1 (n / 6)) : Int))
      omega
  · have hx' := py_sorted_set_mem.mp hx
    rcases List.mem_append.mp hx' with hb | hw
    · simp at hb
      rcases hb with h | h | h <;> omega
    · have := weighted_random_indices_mem_le o 0 1 n _ _ hn x hw
      omega

theorem seed_batch_nodup (n B : Nat) (o : RngOracle) :
    (seed_batch n B o).1.Nodup := by
  simp only [seed_batch]
  split
  · exact py_sorted_set_nodup _
  · exact py_sorted_set_nodup _

theorem weighted_k_zero (o : RngOracle) (t fuel n : Nat) (mi : Option Int) :
    (weighted_random_indices o t fuel n 0 mi).1 = [] := by
  unfold weighted_random_indices
  rw [if_pos (Or.inr rfl)]

theorem seed_batch_len_le (n B : Nat) (o : RngOracle) :
    (seed_batch n B o).1.length ≤ if 4 ≤ B then 5 else 3 := by
  simp only [seed_batch]
  split
  · refine le_trans (py_sorted_set_length_le _) ?_
    have hw := weighted_fuel_one_len o 0 n (min 1 (B - 3))
      (some (3 * ((n : Int) - 1) / 4))
    simp only [List.length_append, List.length_cons, List.length_nil,
      List.length_singleton]
    generalize (weighted_random_indices o 0 1 n (min 1 (B - 3))
      (some (3 * ((n : Int) - 1) / 4))).1.length = L at hw ⊢
    omega
  · rename_i hB4
    refine le_trans (py_sorted_set_length_le _) ?_
    have hk : min 1 (B - 3) = 0 := by omega
    rw [hk, weighted_k_zero o 0 1 n (some (3 * ((n : Int) - 1) / 4))]
    simp

theorem buildUniqAux_id (n : Nat) :
    ∀ (l acc : List Nat), (∀ x ∈ l, x < n) → (acc ++ l).Nodup →
      buildUniqAux n [] (l.map Int.ofNat) acc = acc ++ l := by
  intro l
  induction l with
  | nil =>
    intro acc _ _
    simp [buildUniqAux]
  | cons x xs ih =>
    intro acc hr hnd
    rw [List.map_cons]
    unfold buildUniqAux
    have hcl : clampIdx n (Int.ofNat x) = x :=
      clampIdx_of_lt (hr x (List.mem_cons_self _ _))
    rw [hcl]
    have hxacc : x ∉ acc := by
      intro hc
      have hdisj := (List.nodup_append.mp hnd).2.2
      exact hdisj hc (List.mem_cons_self _ _)
    rw [if_neg (by
      intro hc
      rcases hc with hc | hc
      · simp [dictGet] at hc
      · exact hxacc hc)]
    have hnd' : ((acc ++ [x]) ++ xs).Nodup := by
      rw [List.append_assoc]
      exact hnd
    rw [ih (acc ++ [x]) (fun y hy => hr y (List.mem_cons_of_mem _ hy)) hnd']
    rw [List.append_assoc]
    rfl

theorem ensure_batch_run_probes (ctx : EngineCtx) (st : EngineState)
    (u : List Nat) : (ensure_batch_run ctx st u).probes = st.probes ++ u := by
  unfold ensure_batch_run
  cases ctx.score_indices <;> rfl

/-- The seeding `ensure_batch` of the engine (empty cache, budget 3 or at
least 5) probes exactly the seed set — in particular index 0, the midpoint
and the last index. -/
theorem seeding_probes (ctx : EngineCtx) (o : RngOracle)
    (hB : ctx.budget = 3 ∨ 5 ≤ ctx.budget) (hn : ctx.budget < ctx.n) :
    (ensure_batch ctx ⟨[], []⟩
        ((seed_batch ctx.n ctx.budget o).1.map Int.ofNat)).probes =
      (seed_batch ctx.n ctx.budget o).1 := by
  have hn1 : 1 ≤ ctx.n := by omega
  have hne := seed_batch_ne_nil ctx.n ctx.budget o
  have hmap : ((seed_batch ctx.n ctx.budget o).1.map Int.ofNat) ≠ [] := by
    intro hc
    exact hne (List.map_eq_nil_iff.mp hc)
  have hbuild : buildUniq ctx.n []
      ((seed_batch ctx.n ctx.budget o).1.map Int.ofNat) =
      (seed_batch ctx.n ctx.budget o).1 :=
    buildUniqAux_id ctx.n (seed_batch ctx.n ctx.budget o).1 []
      (seed_batch_lt ctx.n ctx.budget o hn1)
      (seed_batch_nodup ctx.n ctx.budget o)
  have hlen : (seed_batch ctx.n ctx.budget o).1.length ≤ ctx.budget := by
    have h := seed_batch_len_le ctx.n ctx.budget o
    rcases hB with h3 | h5
    · rw [h3] at h ⊢
      rw [if_neg (by omega)] at h
      exact h
    · rw [if_pos (by omega)] at h
      omega
  have h1 : ¬ (((seed_batch ctx.n ctx.budget o).1.map Int.ofNat).isEmpty = true ∨
      ctx.budget ≤ (⟨[], []⟩ : EngineState).scored.length) := by
    intro hc
    rcases hc with hc | hc
    · exact hmap (List.isEmpty_iff.mp hc)
    · have hc' : ctx.budget ≤ 0 := hc
      omega
  have h2 : ¬ ((buildUniq ctx.n (⟨[], []⟩ : EngineState).scored
      ((seed_batch ctx.n ctx.budget o).1.map Int.ofNat)).isEmpty = true) := by
    intro hc
    have hc' : buildUniq ctx.n []
        ((seed_batch ctx.n ctx.budget o).1.map Int.ofNat) = [] :=
      List.isEmpty_iff.mp hc
    rw [hbuild] at hc'
    exact hne hc'
  unfold ensure_batch
  rw [if_neg h1, if_neg h2]
  have hsc : (⟨[], []⟩ : EngineState).scored = ([] : Dict) := rfl
  rw [hsc, hbuild]
  have htake : (seed_batch ctx.n ctx.budget o).1.take
      (ctx.budget - (⟨[], []⟩ : EngineState).scored.length) =
      (seed_batch ctx.n ctx.budget o).1 :=
    List.take_of_length_le (by
      have : (⟨[], []⟩ : EngineState).scored.length = 0 := rfl
      omega)
  rw [htake, ensure_batch_run_probes]
  rfl

/-- C6 (amended): with `totalFrames > budget` and a normalised budget of
exactly 3 (no extras are drawn) or at least 5 (the seed set of at most 5
candidates fits the budget), index 0, the midpoint `totalFrames / 2` and
the last index `totalFrames - 1` are all probed by the seeding
`ensure_batch`, and all appear in `meta.probes` of every successful run.
In between (budget 1, 2 — and 4, where the two random extras can crowd an
anchor out) the ascending budget truncation `uniq[:remaining]` can drop the
midpoint and the last index — see the counterexample. -/
theorem c6_seed_anchors (n : Nat) (b : Int) (o : RngOracle)
    (f : Nat → ScoreResult) (sb : Option BatchScorer) (thr : Rat) (la : Nat)
    (hB : (max 1 b).toNat = 3 ∨ 5 ≤ (max 1 b).toNat)
    (hn : (max 1 b).toNat < n) :
    (0 ∈ (ensure_batch ⟨n, (max 1 b).toNat, f, sb, thr, la⟩ ⟨[], []⟩
        ((seed_batch n (max 1 b).toNat o).1.map Int.ofNat)).probes ∧
      n / 2 ∈ (ensure_batch ⟨n, (max 1 b).toNat, f, sb, thr, la⟩ ⟨[], []⟩
        ((seed_batch n (max 1 b).toNat o).1.map Int.ofNat)).probes ∧
      n - 1 ∈ (ensure_batch ⟨n, (max 1 b).toNat, f, sb, thr, la⟩ ⟨[], []⟩
        ((seed_batch n (max 1 b).toNat o).1.map Int.ofNat)).probes) ∧
    (∀ (sc : Dict) (meta : SelectionMeta),
      adaptive_select_and_score n b o f sb thr la = some (sc, meta) →
      0 ∈ meta.probes ∧ n / 2 ∈ meta.probes ∧ n - 1 ∈ meta.probes) := by
  have hprobes : (ensure_batch ⟨n, (max 1 b).toNat, f, sb, thr, la⟩ ⟨[], []⟩
      ((seed_batch n (max 1 b).toNat o).1.map Int.ofNat)).probes =
      (seed_batch n (max 1 b).toNat o).1 :=
    seeding_probes ⟨n, (max 1 b).toNat, f, sb, thr, la⟩ o hB hn
  obtain ⟨hm0, hmh, hml⟩ := seed_batch_mem n (max 1 b).toNat o
  constructor
  · rw [hprobes]
    exact ⟨hm0, hmh, hml⟩
  · intro sc meta h
    have h' : engine_main ⟨n, (max 1 b).toNat, f, sb, thr, la⟩ o =
        some (sc, meta) := h
    unfold engine_main at h'
    dsimp only at h'
    rw [if_neg (show ¬ n ≤ (max 1 b).toNat by omega)] at h'
    split at h'
    · obtain ⟨_, _, _, h4, _, _⟩ := mkResult_eq_some h'
      have h4' : meta.probes =
          (ensure_batch ⟨n, (max 1 b).toNat, f, sb, thr, la⟩ ⟨[], []⟩
            ((seed_batch n (max 1 b).toNat o).1.map Int.ofNat)).probes := h4
      rw [h4', hprobes]
      exact ⟨hm0, hmh, hml⟩
    · obtain ⟨st', c, hext, hmk, _⟩ := tail_phase_shape h'
      obtain ⟨_, _, _, h4, _, _⟩ := mkResult_eq_some hmk
      have hext2 := stExt_trans
        (ternary_loop_ext ⟨n, (max 1 b).toNat, f, sb, thr, la⟩
          (min 6 (max 2 ((max 1 b).toNat / 2))) 0 (n - 1)
          (ensure_batch ⟨n, (max 1 b).toNat, f, sb, thr, la⟩ ⟨[], []⟩
            ((seed_batch n (max 1 b).toNat o).1.map Int.ofNat))) hext
      obtain ⟨_, ⟨p, hp⟩⟩ := hext2
      have h4' : meta.probes = st'.probes := h4
      rw [h4', hp, hprobes]
      exact ⟨List.mem_append.mpr (Or.inl hm0), List.mem_append.mpr (Or.inl hmh),
        List.mem_append.mpr (Or.inl hml)⟩

/-- Counterexample for C6 as frozen ("budget >= 1"): with 10 frames and
budget 1 the seeding batch is truncated to the first seed in ascending
order — only index 0 is ever probed; the midpoint 5 and the last index 9
are not. -/
theorem c6_counterexample :
    adaptive_select_and_score 10 1 zeroOracle cS none 1 2 =
      some ([(0, constScore)], ⟨1, [0], [0], 9, 0⟩) ∧
    (10 : Nat) / 2 ∉ ([0] : List Nat) ∧ (10 : Nat) - 1 ∉ ([0] : List Nat) := by
  exact ⟨by decide, by decide, by decide⟩

/-- Witness for C6: a 4-frame run with budget 3 probes all three anchors. -/
theorem c6_witness :
    (0 ∈ (ensure_batch ⟨4, (max 1 (3 : Int)).toNat, cS, none, 1, 2⟩ ⟨[], []⟩
        ((seed_batch 4 (max 1 (3 : Int)).toNat zeroOracle).1.map
          Int.ofNat)).probes ∧
      4 / 2 ∈ (ensure_batch ⟨4, (max 1 (3 : Int)).toNat, cS, none, 1, 2⟩ ⟨[], []⟩
        ((seed_batch 4 (max 1 (3 : Int)).toNat zeroOracle).1.map
          Int.ofNat)).probes ∧
      4 - 1 ∈ (ensure_batch ⟨4, (max 1 (3 : Int)).toNat, cS, none, 1, 2⟩ ⟨[], []⟩
        ((seed_batch 4 (max 1 (3 : Int)).toNat zeroOracle).1.map
          Int.ofNat)).probes) ∧
    (0 ∈ ([0, 2, 3] : List Nat) ∧ 4 / 2 ∈ ([0, 2, 3] : List Nat) ∧
      4 - 1 ∈ ([0, 2, 3] : List Nat)) :=
  ⟨(c6_seed_anchors 4 3 zeroOracle cS none 1 2 (Or.inl (by decide))
      (by decide)).1,
   (c6_seed_anchors 4 3 zeroOracle cS none 1 2 (Or.inl (by decide))
      (by decide)).2
     [(0, constScore), (2, constScore), (3, constScore)]
     ⟨3, [0, 2, 3], [0, 2, 3], 3, 0⟩ (by decide)⟩
